import Mathlib

/-!
# Verification of the fvm-wasm-instrument bytecode rewriters

A shallow embedding of the two instrumentation passes of the repository:
the gas-metering injector (`src/gas_metering/mod.rs`) and the stack-height
limiter (`src/stack_limiter/mod.rs`), together with theorems settling the
frozen claims about them.

Modelling conventions:
* Machine integers are `Nat`/`Int`; `u64` arithmetic that Rust leaves
  unchecked (release-mode wrapping) is written with an explicit `% 2^64`,
  and `checked_add` is an explicit bound test.
* Fallible Rust code returning `Result<_, ()>` or `anyhow::Result` is
  modelled with `Except`.  The Rust gas injector collapses every failure
  to the unit error; the embedding tags each error site with a distinct
  constructor (`GasErr`) so that theorems can speak about the reason, but
  erasing the tag recovers the source behaviour.
* Rust `HashSet`/`HashMap` iteration order is unspecified; wherever the
  source iterates such a container (assignment of dynamic-thunk indices)
  the embedding takes the iteration order as an explicit parameter.
-/

namespace WasmInstrument

/-- Wasm value types (parity_wasm `ValueType` / wasm_encoder `ValType`). -/
inductive ValueType where
  | i32
  | i64
  | f32
  | f64
deriving DecidableEq, Repr

/-- Block types carried by structured control instructions
(parity_wasm `BlockType::NoResult` / `BlockType::Value`). -/
inductive BlockTy where
  | empty
  | value (t : ValueType)
deriving DecidableEq, Repr

/-- The instructions the two rewriters inspect or synthesise.  Every operator
that none of the rewriters treats specially is represented by the opaque
constructor `Other`; the translator copies such operators unchanged, so one
constructor per distinct opcode payload suffices.  `GetGlobal`/`SetGlobal`
stand for both the parity_wasm spellings and the wasm_encoder
`GlobalGet`/`GlobalSet` spellings. -/
inductive Instruction where
  | Unreachable
  | Block (bt : BlockTy)
  | Loop (bt : BlockTy)
  | If (bt : BlockTy)
  | Else
  | End
  | Br (label : Nat)
  | BrIf (label : Nat)
  | BrTable (table : List Nat) (dflt : Nat)
  | Return
  | Call (func : Nat)
  | Drop
  | GetLocal (idx : Nat)
  | SetLocal (idx : Nat)
  | GetGlobal (idx : Nat)
  | SetGlobal (idx : Nat)
  | I32Const (v : Int)
  | I64Const (v : Int)
  | GrowMemory (mem : Nat)
  | I32Add
  | I32Sub
  | I32GtU
  | I64Sub
  | I64Mul
  | I64LtS
  | I64ExtendUI32
  | Other (code : Nat)
deriving DecidableEq, Repr

/-- 2^64, the modulus of Rust `u64` arithmetic. -/
def u64Mod : Nat := 2 ^ 64

/-- 2^32, the modulus of Rust `u32` arithmetic. -/
def u32Mod : Nat := 2 ^ 32

/-- The value of `v as u64` for an `i32` value `v`: sign extension into the
unsigned 64-bit range. -/
def u64_of_i32 (v : Int) : Nat := (v % (2 ^ 64 : Int)).toNat

/-- The value of `c as i64` for a `u64` value `c`: two's-complement
reinterpretation. -/
def i64_of_u64 (c : Nat) : Int :=
  if c < 2 ^ 63 then (c : Int) else (c : Int) - 2 ^ 64

/-- The value of `c as i32` for a `u32` value `c`: two's-complement
reinterpretation. -/
def i32_of_u32 (c : Nat) : Int :=
  if c < 2 ^ 31 then (c : Int) else (c : Int) - 2 ^ 32

/-- InstructionCost from gas_metering: either a fixed charge or a
base-plus-linear charge keyed on the last stack operand.  The source stores
the per-unit factor as `NonZeroU64`; well-formedness of a rule set is a
separate predicate (`RulesWf`). -/
inductive InstructionCost where
  | Fixed (c : Nat)
  | Linear (base : Nat) (per : Nat)
deriving DecidableEq, Repr

/-- The Rules trait: one method, `instruction_cost`, whose `Err(())` outcome
(the way an instruction is forbidden) is modelled by `none`. -/
def Rules : Type := Instruction → Option InstructionCost

/-- The numeric side conditions the Rust types enforce: all costs fit in a
`u64` and the linear factor is a `NonZeroU64`. -/
def RulesWf (r : Rules) : Prop :=
  ∀ i, match r i with
    | none => True
    | some (.Fixed c) => c < u64Mod
    | some (.Linear base per) => base < u64Mod ∧ 0 < per ∧ per < u64Mod

/-- The distinct error sites of the gas injector.  The Rust code collapses
all of them to `Err(())`; the tags record which source line produced the
error. -/
inductive GasErr where
  | forbidden
  | underflow
  | overflow
  | internal
  | badImport
  | badOffset
  | notLinear
  | unsupportedDyn
  | noParams
deriving DecidableEq, Repr

/-- MeteredBlock: the offset in the original instruction sequence at which a
charge must be inserted, plus the cumulative static cost. -/
structure MeteredBlock where
  start_pos : Nat
  cost : Nat
deriving DecidableEq, Repr

/-- ControlBlock: an open control region during the scan. -/
structure ControlBlock where
  lowest_forward_br_target : Nat
  active_metered_block : MeteredBlock
  is_loop : Bool
deriving DecidableEq, Repr

/-- Counter: the state of the metered-block algorithm.  The source keeps the
control stack in a `Vec` with the top at the end; here the head of the list
is the top, and the bottom-based indices the source stores
(`lowest_forward_br_target`, branch targets) are converted on access. -/
structure Counter where
  stack : List ControlBlock
  finalized_blocks : List MeteredBlock
deriving DecidableEq, Repr

namespace Counter

def new : Counter := { stack := [], finalized_blocks := [] }

/-- Open a new control block (source `begin_control_block`).  The recorded
`lowest_forward_br_target` is the bottom-based index of the new block, which
is the stack length before the push. -/
def begin_control_block (c : Counter) (cursor : Nat) (isLoop : Bool) : Counter :=
  { c with stack :=
      { lowest_forward_br_target := c.stack.length,
        active_metered_block := { start_pos := cursor, cost := 0 },
        is_loop := isLoop } :: c.stack }

/-- Source `finalize_metered_block`: swap the top control block's active
metered block for a fresh one starting at `cursor + 1`; merge the closing
block into the parent when the start positions coincide, otherwise push it
onto the finalized list when its cost is positive.  The merge addition is
the source's unchecked `u64` `+=`, hence the explicit wrap. -/
def finalize_metered_block (c : Counter) (cursor : Nat) : Except GasErr Counter :=
  match c.stack with
  | [] => .error .underflow
  | top :: rest =>
    let closing := top.active_metered_block
    let top' := { top with active_metered_block := { start_pos := cursor + 1, cost := 0 } }
    match rest with
    | prev :: rest' =>
      if closing.start_pos = prev.active_metered_block.start_pos then
        .ok { c with stack := top' ::
          { prev with active_metered_block :=
            { prev.active_metered_block with
              cost := (prev.active_metered_block.cost + closing.cost) % u64Mod } } :: rest' }
      else if 0 < closing.cost then
        .ok { stack := top' :: prev :: rest',
              finalized_blocks := c.finalized_blocks ++ [closing] }
      else
        .ok { c with stack := top' :: prev :: rest' }
    | [] =>
      if 0 < closing.cost then
        .ok { stack := [top'], finalized_blocks := c.finalized_blocks ++ [closing] }
      else
        .ok { c with stack := [top'] }

/-- Source `finalize_control_block`: finalize the active metered block, pop
the control stack, propagate `lowest_forward_br_target` to the parent, and
finalize the parent's active metered block as well when a branch may escape
the closed block. -/
def finalize_control_block (c : Counter) (cursor : Nat) : Except GasErr Counter := do
  let c ← c.finalize_metered_block cursor
  match c.stack with
  | [] => .error .underflow
  | closing :: rest =>
    let closing_index := rest.length
    match rest with
    | [] => .ok { c with stack := [] }
    | prev :: rest' =>
      let lf := min prev.lowest_forward_br_target closing.lowest_forward_br_target
      let prev' := { prev with lowest_forward_br_target := lf }
      let c' : Counter := { c with stack := prev' :: rest' }
      if closing.lowest_forward_br_target < closing_index then
        c'.finalize_metered_block cursor
      else
        .ok c'

/-- The loop body of source `branch`: for each bottom-based target index,
skip loop targets and lower the top block's `lowest_forward_br_target`
otherwise.  An index outside the stack reproduces the `ok_or(())` failure. -/
def branch_update : List ControlBlock → List Nat → Except GasErr (List ControlBlock)
  | stack, [] => .ok stack
  | [], _ :: _ => .error .underflow
  | top :: below, index :: rest =>
    if h : index < (top :: below).length then
      let target := (top :: below).get ⟨(top :: below).length - 1 - index, by omega⟩
      if target.is_loop then
        branch_update (top :: below) rest
      else
        let lf := min top.lowest_forward_br_target index
        branch_update ({ top with lowest_forward_br_target := lf } :: below) rest
    else .error .underflow

/-- Source `branch`. -/
def branch (c : Counter) (cursor : Nat) (indices : List Nat) : Except GasErr Counter := do
  let c ← c.finalize_metered_block cursor
  let s ← branch_update c.stack indices
  .ok { c with stack := s }

/-- Source `active_control_block_index`. -/
def active_control_block_index (c : Counter) : Option Nat :=
  match c.stack with
  | [] => none
  | _ :: _ => some (c.stack.length - 1)

/-- Source `Counter::increment`: `checked_add` into the active block's cost;
a `u64` overflow is fatal. -/
def increment (c : Counter) (val : Nat) : Except GasErr Counter :=
  match c.stack with
  | [] => .error .underflow
  | top :: rest =>
    if top.active_metered_block.cost + val < u64Mod then
      .ok { c with stack :=
        { top with active_metered_block :=
          { top.active_metered_block with
            cost := top.active_metered_block.cost + val } } :: rest }
    else .error .overflow

end Counter

/-- The cost computation at the head of the scan loop in
`determine_metered_blocks`: a `Fixed` cost is charged as is; a `Linear` cost
folds the remembered `i32.const` operand into a static charge using the
source's unchecked `u64` multiply-add (hence the wrap), and otherwise
contributes its base while flagging the instruction as dynamic. -/
def static_cost (rules : Rules) (last_const : Option Int) (i : Instruction) :
    Except GasErr (Nat × Bool) :=
  match rules i with
  | none => .error .forbidden
  | some (.Fixed c) => .ok (c, false)
  | some (.Linear base per) =>
    match last_const with
    | some v => .ok ((base + u64_of_i32 v * per) % u64Mod, false)
    | none => .ok (base, true)

/-- The loop state of `determine_metered_blocks`: the counter, the remembered
`i32.const` operand, and the set of dynamic-cost instructions.  The source
keeps the set in a `HashSet`; it is modelled as a duplicate-free list in
first-insertion order. -/
structure ScanState where
  counter : Counter
  last_const : Option Int
  dyn : List Instruction
deriving Repr

/-- The dispatch on the scanned instruction in the loop of
`determine_metered_blocks`: how the counter evolves at offset `cursor` for
an instruction whose static charge is `cost`. -/
def scan_counter (cursor cost : Nat) (i : Instruction) (c0 : Counter) :
    Except GasErr Counter :=
  match i with
  | .Block _ => do
      let c ← c0.increment cost
      match c.stack with
      | [] => Except.error .underflow
      | top :: _ =>
        Except.ok (c.begin_control_block top.active_metered_block.start_pos false)
  | .If _ => do
      let c ← c0.increment cost
      Except.ok (c.begin_control_block (cursor + 1) false)
  | .Loop _ => do
      let c ← c0.increment cost
      Except.ok (c.begin_control_block (cursor + 1) true)
  | .End => c0.finalize_control_block cursor
  | .Else => c0.finalize_metered_block cursor
  | .Br label | .BrIf label => do
      let c ← c0.increment cost
      match c.active_control_block_index with
      | none => Except.error .underflow
      | some active =>
        if label ≤ active then c.branch cursor [active - label]
        else Except.error .underflow
  | .BrTable table dflt => do
      let c ← c0.increment cost
      match c.active_control_block_index with
      | none => Except.error .underflow
      | some active =>
        let targets ← (dflt :: table).mapM fun label =>
          if label ≤ active then Except.ok (active - label)
          else (Except.error .underflow : Except GasErr Nat)
        c.branch cursor targets
  | .Return => do
      let c ← c0.increment cost
      c.branch cursor [0]
  | _ => c0.increment cost

/-- One iteration of the scan loop of `determine_metered_blocks`, at offset
`cursor`. -/
def scan_step (rules : Rules) (cursor : Nat) (i : Instruction) (st : ScanState) :
    Except GasErr ScanState := do
  let (cost, isDyn) ← static_cost rules st.last_const i
  let dyn' := if isDyn then (if i ∈ st.dyn then st.dyn else st.dyn ++ [i]) else st.dyn
  let lc' : Option Int :=
    match i with
    | .I32Const v => some v
    | _ => none
  let counter' ← scan_counter cursor cost i st.counter
  Except.ok { counter := counter', last_const := lc', dyn := dyn' }

/-- The scan loop itself, with `cursor` the offset of the next instruction. -/
def scan_go (rules : Rules) : Nat → List Instruction → ScanState → Except GasErr ScanState
  | _, [], st => .ok st
  | cursor, i :: rest, st => do
      scan_go rules (cursor + 1) rest (← scan_step rules cursor i st)

/-- The final `sort_unstable_by_key(|block| block.start_pos)`.  An insertion
sort is used; on ok runs the keys are pairwise distinct (proved below), so
every sorting algorithm yields the same list. -/
def sort_blocks (blocks : List MeteredBlock) : List MeteredBlock :=
  List.insertionSort (fun a b => a.start_pos ≤ b.start_pos) blocks

/-- Source `determine_metered_blocks`.  Returns the sorted finalized metered
blocks together with the set of dynamic-cost instructions. -/
def determine_metered_blocks (rules : Rules) (instrs : List Instruction) :
    Except GasErr (List MeteredBlock × List Instruction) := do
  let init : ScanState :=
    { counter := Counter.new.begin_control_block 0 false, last_const := none, dyn := [] }
  let st ← scan_go rules 0 instrs init
  .ok (sort_blocks st.counter.finalized_blocks, st.dyn)

/-- The copy loop of source `insert_metering_calls`: copy the original
operators one by one; when the next pending block starts at the current
offset, emit `I64Const(cost); Call(gas_func)` first.  Returns the new body
and the blocks that were never placed. -/
def insert_loop (gas_func : Nat) :
    List Instruction → Nat → List MeteredBlock → List Instruction × List MeteredBlock
  | [], _, blocks => ([], blocks)
  | instr :: rest, pos, [] =>
    let r := insert_loop gas_func rest (pos + 1) []
    (instr :: r.1, r.2)
  | instr :: rest, pos, b :: bs =>
    if b.start_pos = pos then
      let r := insert_loop gas_func rest (pos + 1) bs
      (.I64Const (i64_of_u64 b.cost) :: .Call gas_func :: instr :: r.1, r.2)
    else
      let r := insert_loop gas_func rest (pos + 1) (b :: bs)
      (instr :: r.1, r.2)

/-- Source `insert_metering_calls`: a block left unplaced at the end of the
sequence is a fatal internal error. -/
def insert_metering_calls (gas_func : Nat) (blocks : List MeteredBlock)
    (instrs : List Instruction) : Except GasErr (List Instruction) :=
  match insert_loop gas_func instrs 0 blocks with
  | (out, []) => .ok out
  | (_, _ :: _) => .error .internal

/-- Source `inject_counter`. -/
def inject_counter (rules : Rules) (gas_func : Nat) (instrs : List Instruction) :
    Except GasErr (List Instruction × List Instruction) := do
  let (blocks, dynamic_instrs) ← determine_metered_blocks rules instrs
  let out ← insert_metering_calls gas_func blocks instrs
  .ok (out, dynamic_instrs)

/-- The constant GAS_COUNTER_NAME. -/
def GAS_COUNTER_NAME : String := "gas_counter"

/-- The external kind of an import entry. -/
inductive Ext where
  | globalImp (t : ValueType) (mutFlag : Bool)
  | funcImp
  | otherImp
deriving DecidableEq, Repr

/-- An entry of the import section. -/
structure ImportEntry where
  module : String
  field : String
  ext : Ext
deriving DecidableEq, Repr

/-- A defined function: its signature and its body. -/
structure GasFunc where
  params : List ValueType
  results : List ValueType
  body : List Instruction
deriving DecidableEq, Repr

/-- An entry of the export section; only global exports are renumbered by
the gas injector, so the other kinds are kept abstract. -/
inductive ExportEntry where
  | globalExp (idx : Nat)
  | funcExp (idx : Nat)
  | otherExp
deriving DecidableEq, Repr

/-- The sections of a parity_wasm module that the gas injector reads or
rewrites.  Element and data segments are represented by their offset
initializer code (`none` for a passive segment with no offset), which is the
only part the injector looks at. -/
structure GasModule where
  imports : List ImportEntry
  funcs : List GasFunc
  exports : List ExportEntry
  elem_offsets : List (Option (List Instruction))
  data_offsets : List (Option (List Instruction))
deriving DecidableEq, Repr

/-- Number of global imports (`import_count(ImportCountType::Global)`). -/
def count_global_imports (l : List ImportEntry) : Nat :=
  (l.filter fun p => match p.ext with | .globalImp _ _ => true | _ => false).length

/-- Number of function imports. -/
def count_func_imports (l : List ImportEntry) : Nat :=
  (l.filter fun p => match p.ext with | .funcImp => true | _ => false).length

/-- The import the injector pushes: a mutable i64 global named
GAS_COUNTER_NAME under the caller-chosen module name. -/
def gas_import (name : String) : ImportEntry :=
  { module := name, field := GAS_COUNTER_NAME, ext := .globalImp .i64 true }

/-- The filter the injector applies to the import section: a mutable
global import (of any value type) with the gas module name and field. -/
def is_gas_import (name : String) (p : ImportEntry) : Bool :=
  match p.ext with
  | .globalImp _ m => decide (p.module = name) && decide (p.field = GAS_COUNTER_NAME) && m
  | _ => false

/-- Number of imports matching the gas-global slot. -/
def count_gas_imports (name : String) (l : List ImportEntry) : Nat :=
  (l.filter (is_gas_import name)).length

/-- Source `check_offset_code`: the offset initializer must be exactly
`[I32Const(_), End]`. -/
def check_offset_code (code : List Instruction) : Bool :=
  match code with
  | [.I32Const _, .End] => true
  | _ => false

/-- A segment passes the offset check when it has no offset (the source only
checks `Some` offsets) or its code passes `check_offset_code`. -/
def offset_ok (o : Option (List Instruction)) : Bool :=
  match o with
  | none => true
  | some code => check_offset_code code

/-- The global renumbering applied inside code bodies: `GetGlobal` and
`SetGlobal` indices at or above the new gas global are shifted by one. -/
def renumber_global_instr (gas_global : Nat) (i : Instruction) : Instruction :=
  match i with
  | .GetGlobal g => if gas_global ≤ g then .GetGlobal (g + 1) else i
  | .SetGlobal g => if gas_global ≤ g then .SetGlobal (g + 1) else i
  | _ => i

/-- Renumber the globals of a whole body. -/
def renumber_globals (gas_global : Nat) (body : List Instruction) : List Instruction :=
  body.map (renumber_global_instr gas_global)

/-- The renumbering of global exports. -/
def renumber_export (gas_global : Nat) (e : ExportEntry) : ExportEntry :=
  match e with
  | .globalExp idx => if gas_global ≤ idx then .globalExp (idx + 1) else e
  | _ => e

/-- Lookup in the dynamic-thunk map, modelled as an association list. -/
def dyn_lookup (m : List (Instruction × Nat)) (i : Instruction) : Option Nat :=
  (m.find? fun p => decide (p.1 = i)).map (·.2)

/-- Source `inject_dynamic_counters`: every instruction present in the
dynamic map is replaced by a call to its thunk (the source performs this
unconditionally; the `TODO CHECK FOR CONST` comment in the source flags that
it happens even when the operand was a constant). -/
def inject_dynamic_counters (m : List (Instruction × Nat)) (body : List Instruction) :
    List Instruction :=
  body.map fun i =>
    match dyn_lookup m i with
    | some f => .Call f
    | none => i

/-- The `entry(instr).or_insert_with(...)` step: `next_dyncnt_func` is
incremented before its first use, so the first thunk index is one past the
gas function. -/
def dyn_entry (st : List (Instruction × Nat) × Nat) (i : Instruction) :
    List (Instruction × Nat) × Nat :=
  if (dyn_lookup st.1 i).isSome then st else (st.1 ++ [(i, st.2 + 1)], st.2 + 1)

/-- The per-body part of the section loop in `inject`: renumber globals,
inject the metering counter, record the body's dynamic instructions in the
thunk map (in HashSet iteration order, supplied by `pick`), then rewrite
dynamic instructions through the map accumulated so far. -/
def process_bodies (rules : Rules) (gas_global gas_func : Nat)
    (pick : List Instruction → List Instruction) :
    List GasFunc → List (Instruction × Nat) × Nat →
    Except GasErr (List GasFunc × (List (Instruction × Nat) × Nat))
  | [], st => .ok ([], st)
  | f :: fs, st => do
    let body1 := renumber_globals gas_global f.body
    let (body2, dyn) ← inject_counter rules gas_func body1
    let st' := (pick dyn).foldl dyn_entry st
    let body3 := inject_dynamic_counters st'.1 body2
    let (fs', st'') ← process_bodies rules gas_global gas_func pick fs st'
    .ok ({ f with body := body3 } :: fs', st'')

/-- The body of the function `add_gas_counter` synthesises, exactly as the
builder in the source assembles it. -/
def gas_counter_func (gas_global : Nat) : GasFunc :=
  { params := [.i64], results := [],
    body := [.GetGlobal gas_global, .GetLocal 0, .I64Sub, .SetGlobal gas_global,
             .GetGlobal gas_global, .I64Const 0, .I64LtS, .If .empty,
             .Unreachable, .End, .End] }

/-- Source `add_gas_counter`: push the gas-accounting function. -/
def add_gas_counter (m : GasModule) (gas_global : Nat) : GasModule :=
  { m with funcs := m.funcs ++ [gas_counter_func gas_global] }

/-- Source `instruction_signature`: only `memory.grow` is supported (the
bulk-memory cases are behind a feature gate that is off). -/
def instruction_signature (i : Instruction) :
    Except GasErr (List ValueType × List ValueType) :=
  match i with
  | .GrowMemory _ => .ok ([.i32], [.i32])
  | _ => .error .unsupportedDyn

/-- One iteration of the thunk-building loop in `add_dynamic_counters`. -/
def dyn_thunk (rules : Rules) (gas_func : Nat) (p : Instruction × Nat) :
    Except GasErr GasFunc := do
  let per ←
    match rules p.1 with
    | some (.Linear _ per) => Except.ok per
    | _ => Except.error .notLinear
  let (params, rets) ← instruction_signature p.1
  let head := (List.range params.length).map fun k => Instruction.GetLocal k
  let dynGet := Instruction.GetLocal (params.length - 1)
  let cast ←
    match params.getLast? with
    | none => Except.error .noParams
    | some .i32 => Except.ok Instruction.I64ExtendUI32
    | some _ => Except.error .unsupportedDyn
  .ok { params := params, results := rets,
        body := head ++ [dynGet, cast, .I64Const (i64_of_u64 per), .I64Mul,
                         .Call gas_func, p.1, .End] }

/-- The `sort_by` on thunk indices in `add_dynamic_counters`. -/
def sort_dyn (m : List (Instruction × Nat)) : List (Instruction × Nat) :=
  List.insertionSort (fun a b => a.2 ≤ b.2) m

/-- Source `add_dynamic_counters`: build one thunk per dynamic instruction,
in index order, and push them after all other functions. -/
def add_dynamic_counters (rules : Rules) (gas_func : Nat) (m : GasModule)
    (dynMap : List (Instruction × Nat)) : Except GasErr GasModule := do
  let thunks ← (sort_dyn dynMap).mapM (dyn_thunk rules gas_func)
  .ok { m with funcs := m.funcs ++ thunks }

/-- Source `inject`, the public entry point of the gas injector.  `pick`
supplies the HashSet iteration order used when assigning thunk indices (the
Rust standard-library order is unspecified and randomly seeded); a run of
the program corresponds to one choice of `pick`.  The section loop of the
source records a sticky error flag and reports it once at the end; the
sequential checks here are extensionally the same: the result is an error
exactly when any check fails, and otherwise the same module is produced. -/
def inject (rules : Rules) (gas_module_name : String)
    (pick : List Instruction → List Instruction) (m : GasModule) :
    Except GasErr GasModule := do
  let imports1 := m.imports ++ [gas_import gas_module_name]
  let gas_global := count_global_imports imports1 - 1
  let total_func := count_func_imports imports1 + m.funcs.length
  let gas_func := total_func
  let (funcs1, st) ← process_bodies rules gas_global gas_func pick m.funcs ([], total_func)
  if count_gas_imports gas_module_name imports1 = 1 then pure () else throw .badImport
  if m.elem_offsets.all offset_ok then pure () else throw .badOffset
  if m.data_offsets.all offset_ok then pure () else throw .badOffset
  let m1 : GasModule :=
    { imports := imports1, funcs := funcs1,
      exports := m.exports.map (renumber_export gas_global),
      elem_offsets := m.elem_offsets, data_offsets := m.data_offsets }
  let m2 := add_gas_counter m1 gas_global
  if st.1.isEmpty then .ok m2 else add_dynamic_counters rules gas_func m2 st.1

/-! ### Ghost-instrumented scan

The metered blocks only record a start position and a cost, so "the
instructions of a metered block" has no direct representation.  The
following variant of the scan carries, in every metered block, the list of
instruction offsets whose cost was charged to it.  Erasing that ghost field
provably recovers the source scan (theorems below), so properties proved of
the ghost fields are properties of the source algorithm. -/

/-- A metered block together with the offsets charged to it. -/
structure MeteredBlockG where
  start_pos : Nat
  cost : Nat
  instrs : List Nat
deriving DecidableEq, Repr

/-- Ghost control block. -/
structure ControlBlockG where
  lowest_forward_br_target : Nat
  active_metered_block : MeteredBlockG
  is_loop : Bool
deriving DecidableEq, Repr

/-- Ghost counter. -/
structure CounterG where
  stack : List ControlBlockG
  finalized_blocks : List MeteredBlockG
deriving DecidableEq, Repr

/-- Erase the ghost offsets of a metered block. -/
def MeteredBlockG.erase (b : MeteredBlockG) : MeteredBlock :=
  { start_pos := b.start_pos, cost := b.cost }

/-- Erase the ghost offsets of a control block. -/
def ControlBlockG.erase (b : ControlBlockG) : ControlBlock :=
  { lowest_forward_br_target := b.lowest_forward_br_target,
    active_metered_block := b.active_metered_block.erase,
    is_loop := b.is_loop }

/-- Erase the ghost offsets of a counter. -/
def CounterG.erase (c : CounterG) : Counter :=
  { stack := c.stack.map ControlBlockG.erase,
    finalized_blocks := c.finalized_blocks.map MeteredBlockG.erase }

namespace CounterG

def new : CounterG := { stack := [], finalized_blocks := [] }

/-- Ghost `begin_control_block`. -/
def begin_control_block (c : CounterG) (cursor : Nat) (isLoop : Bool) : CounterG :=
  { c with stack :=
      { lowest_forward_br_target := c.stack.length,
        active_metered_block := { start_pos := cursor, cost := 0, instrs := [] },
        is_loop := isLoop } :: c.stack }

/-- Ghost `finalize_metered_block`; a merge also merges the charged
offsets. -/
def finalize_metered_block (c : CounterG) (cursor : Nat) : Except GasErr CounterG :=
  match c.stack with
  | [] => .error .underflow
  | top :: rest =>
    let closing := top.active_metered_block
    let top' := { top with active_metered_block :=
      { start_pos := cursor + 1, cost := 0, instrs := [] } }
    match rest with
    | prev :: rest' =>
      if closing.start_pos = prev.active_metered_block.start_pos then
        .ok { c with stack := top' ::
          { prev with active_metered_block :=
            { prev.active_metered_block with
              cost := (prev.active_metered_block.cost + closing.cost) % u64Mod,
              instrs := prev.active_metered_block.instrs ++ closing.instrs } } :: rest' }
      else if 0 < closing.cost then
        .ok { stack := top' :: prev :: rest',
              finalized_blocks := c.finalized_blocks ++ [closing] }
      else
        .ok { c with stack := top' :: prev :: rest' }
    | [] =>
      if 0 < closing.cost then
        .ok { stack := [top'], finalized_blocks := c.finalized_blocks ++ [closing] }
      else
        .ok { c with stack := [top'] }

/-- Ghost `finalize_control_block`. -/
def finalize_control_block (c : CounterG) (cursor : Nat) : Except GasErr CounterG := do
  let c ← c.finalize_metered_block cursor
  match c.stack with
  | [] => .error .underflow
  | closing :: rest =>
    let closing_index := rest.length
    match rest with
    | [] => .ok { c with stack := [] }
    | prev :: rest' =>
      let lf := min prev.lowest_forward_br_target closing.lowest_forward_br_target
      let prev' := { prev with lowest_forward_br_target := lf }
      let c' : CounterG := { c with stack := prev' :: rest' }
      if closing.lowest_forward_br_target < closing_index then
        c'.finalize_metered_block cursor
      else
        .ok c'

/-- Ghost `branch_update`. -/
def branch_update : List ControlBlockG → List Nat → Except GasErr (List ControlBlockG)
  | stack, [] => .ok stack
  | [], _ :: _ => .error .underflow
  | top :: below, index :: rest =>
    if h : index < (top :: below).length then
      let target := (top :: below).get ⟨(top :: below).length - 1 - index, by omega⟩
      if target.is_loop then
        branch_update (top :: below) rest
      else
        let lf := min top.lowest_forward_br_target index
        branch_update ({ top with lowest_forward_br_target := lf } :: below) rest
    else .error .underflow

/-- Ghost `branch`. -/
def branch (c : CounterG) (cursor : Nat) (indices : List Nat) : Except GasErr CounterG := do
  let c ← c.finalize_metered_block cursor
  let s ← branch_update c.stack indices
  .ok { c with stack := s }

/-- Ghost `active_control_block_index`. -/
def active_control_block_index (c : CounterG) : Option Nat :=
  match c.stack with
  | [] => none
  | _ :: _ => some (c.stack.length - 1)

/-- Ghost `increment`: additionally records the charged offset. -/
def increment (c : CounterG) (cursor : Nat) (val : Nat) : Except GasErr CounterG :=
  match c.stack with
  | [] => .error .underflow
  | top :: rest =>
    if top.active_metered_block.cost + val < u64Mod then
      .ok { c with stack :=
        { top with active_metered_block :=
          { top.active_metered_block with
            cost := top.active_metered_block.cost + val,
            instrs := top.active_metered_block.instrs ++ [cursor] } } :: rest }
    else .error .overflow

end CounterG

/-- Ghost loop state. -/
structure ScanStateG where
  counter : CounterG
  last_const : Option Int
  dyn : List Instruction
deriving Repr

/-- Erase the ghost offsets of a scan state. -/
def ScanStateG.erase (st : ScanStateG) : ScanState :=
  { counter := st.counter.erase, last_const := st.last_const, dyn := st.dyn }

/-- Ghost dispatch on the scanned instruction. -/
def scan_counterG (cursor cost : Nat) (i : Instruction) (c0 : CounterG) :
    Except GasErr CounterG :=
  match i with
  | .Block _ => do
      let c ← c0.increment cursor cost
      match c.stack with
      | [] => Except.error .underflow
      | top :: _ =>
        Except.ok (c.begin_control_block top.active_metered_block.start_pos false)
  | .If _ => do
      let c ← c0.increment cursor cost
      Except.ok (c.begin_control_block (cursor + 1) false)
  | .Loop _ => do
      let c ← c0.increment cursor cost
      Except.ok (c.begin_control_block (cursor + 1) true)
  | .End => c0.finalize_control_block cursor
  | .Else => c0.finalize_metered_block cursor
  | .Br label | .BrIf label => do
      let c ← c0.increment cursor cost
      match c.active_control_block_index with
      | none => Except.error .underflow
      | some active =>
        if label ≤ active then c.branch cursor [active - label]
        else Except.error .underflow
  | .BrTable table dflt => do
      let c ← c0.increment cursor cost
      match c.active_control_block_index with
      | none => Except.error .underflow
      | some active =>
        let targets ← (dflt :: table).mapM fun label =>
          if label ≤ active then Except.ok (active - label)
          else (Except.error .underflow : Except GasErr Nat)
        c.branch cursor targets
  | .Return => do
      let c ← c0.increment cursor cost
      c.branch cursor [0]
  | _ => c0.increment cursor cost

/-- Ghost scan step. -/
def scan_stepG (rules : Rules) (cursor : Nat) (i : Instruction) (st : ScanStateG) :
    Except GasErr ScanStateG := do
  let (cost, isDyn) ← static_cost rules st.last_const i
  let dyn' := if isDyn then (if i ∈ st.dyn then st.dyn else st.dyn ++ [i]) else st.dyn
  let lc' : Option Int :=
    match i with
    | .I32Const v => some v
    | _ => none
  let counter' ← scan_counterG cursor cost i st.counter
  Except.ok { counter := counter', last_const := lc', dyn := dyn' }

/-- Ghost scan loop. -/
def scan_goG (rules : Rules) : Nat → List Instruction → ScanStateG → Except GasErr ScanStateG
  | _, [], st => .ok st
  | cursor, i :: rest, st => do
      scan_goG rules (cursor + 1) rest (← scan_stepG rules cursor i st)

/-- Ghost sort. -/
def sort_blocksG (blocks : List MeteredBlockG) : List MeteredBlockG :=
  List.insertionSort (fun a b => a.start_pos ≤ b.start_pos) blocks

/-- Ghost `determine_metered_blocks`. -/
def determine_metered_blocksG (rules : Rules) (instrs : List Instruction) :
    Except GasErr (List MeteredBlockG × List Instruction) := do
  let init : ScanStateG :=
    { counter := CounterG.new.begin_control_block 0 false, last_const := none, dyn := [] }
  let st ← scan_goG rules 0 instrs init
  .ok (sort_blocksG st.counter.finalized_blocks, st.dyn)

/-- The remembered constant that is in force when the scan reaches offset
`i`: set exactly when the previous instruction is `i32.const`. -/
def last_const_at (instrs : List Instruction) : Nat → Option Int
  | 0 => none
  | j + 1 =>
    match instrs.get? j with
    | some (.I32Const v) => some v
    | _ => none

/-- The static charge the scan levies for the instruction at offset `i`
(zero off the end or for a forbidden instruction, both of which cannot occur
on an ok run). -/
def contrib (rules : Rules) (instrs : List Instruction) (i : Nat) : Nat :=
  match instrs.get? i with
  | none => 0
  | some ins =>
    match static_cost rules (last_const_at instrs i) ins with
    | .ok (c, _) => c
    | .error _ => 0

/-- The sum of the static charges of the offsets attributed to a block. -/
def block_sum (rules : Rules) (instrs : List Instruction) (B : MeteredBlockG) : Nat :=
  (B.instrs.map (contrib rules instrs)).sum

/-- The start positions of the active metered blocks on the control stack,
top first. -/
def stack_startsG (c : CounterG) : List Nat :=
  c.stack.map fun b => b.active_metered_block.start_pos

/-- The start positions of the finalized blocks, in push order. -/
def fin_startsG (c : CounterG) : List Nat :=
  c.finalized_blocks.map MeteredBlockG.start_pos

/-- The active metered blocks on the control stack, top first. -/
def active_blocksG (c : CounterG) : List MeteredBlockG :=
  c.stack.map fun b => b.active_metered_block

/-- A metered block's cost agrees (modulo u64 wrap-around) with the sum of
the static charges of the offsets attributed to it. -/
def cost_ok (rules : Rules) (instrs : List Instruction) (B : MeteredBlockG) : Prop :=
  B.cost = block_sum rules instrs B % u64Mod

/-- The invariant of the scan over the (ghost) counter, after the first `n`
instructions have been processed: finalized blocks have positive cost,
start before `n`, and pairwise distinct starts; active starts are at most
`n`, decrease from the top of the stack downwards, and avoid the finalized
starts; and every block's cost is the (wrapped) sum of its charges. -/
def CInv (rules : Rules) (instrs : List Instruction) (n : Nat) (c : CounterG) : Prop :=
  (∀ F ∈ c.finalized_blocks, 0 < F.cost) ∧
  (∀ s ∈ fin_startsG c, s < n) ∧
  (fin_startsG c).Nodup ∧
  (∀ s ∈ stack_startsG c, s ≤ n) ∧
  (stack_startsG c).Pairwise (fun x y => y ≤ x) ∧
  (∀ s ∈ stack_startsG c, s ∉ fin_startsG c) ∧
  (∀ B ∈ c.finalized_blocks, cost_ok rules instrs B) ∧
  (∀ B ∈ active_blocksG c, cost_ok rules instrs B)

/-- The loop invariant of the scan: the remembered constant matches
`last_const_at`, and the counter invariant holds. -/
def SInv (rules : Rules) (instrs : List Instruction) (n : Nat) (st : ScanStateG) : Prop :=
  st.last_const = last_const_at instrs n ∧ CInv rules instrs n st.counter

instance : IsTotal MeteredBlock fun a b => a.start_pos ≤ b.start_pos :=
  ⟨fun x y => Nat.le_total x.start_pos y.start_pos⟩

instance : IsTrans MeteredBlock fun a b => a.start_pos ≤ b.start_pos :=
  ⟨fun _ _ _ h1 h2 => Nat.le_trans h1 h2⟩

instance : IsTotal MeteredBlockG fun a b => a.start_pos ≤ b.start_pos :=
  ⟨fun x y => Nat.le_total x.start_pos y.start_pos⟩

instance : IsTrans MeteredBlockG fun a b => a.start_pos ≤ b.start_pos :=
  ⟨fun _ _ _ h1 h2 => Nat.le_trans h1 h2⟩

instance : IsTotal (Instruction × Nat) fun a b => a.2 ≤ b.2 :=
  ⟨fun x y => Nat.le_total x.2 y.2⟩

instance : IsTrans (Instruction × Nat) fun a b => a.2 ≤ b.2 :=
  ⟨fun _ _ _ h1 h2 => Nat.le_trans h1 h2⟩

/-- The gas-charging pair inserted at the head of a metered block. -/
def metering_pair (gas_func : Nat) (b : MeteredBlock) : List Instruction :=
  [.I64Const (i64_of_u64 b.cost), .Call gas_func]

/-- The specification-level description of the rewritten body: the original
operators in order, with the charging pair of a block emitted immediately
before the operator at the block's start position. -/
def spec_insert (gas_func : Nat) (blocks : List MeteredBlock)
    (instrs : List Instruction) : List Instruction :=
  instrs.enum.flatMap fun p =>
    (match blocks.find? (fun b => decide (b.start_pos = p.1)) with
     | some b => metering_pair gas_func b
     | none => []) ++ [p.2]

/-! ### Predicates used by the error-characterisation claims -/

/-- The gas-global index the injector computes, as a function of the
original module: the number of global imports before the gas import is
appended. -/
def gas_global_of (m : GasModule) : Nat := count_global_imports m.imports

/-- Some function body's scan fails with the given error. -/
def det_err (rules : Rules) (m : GasModule) (e : GasErr) : Prop :=
  ∃ f ∈ m.funcs,
    determine_metered_blocks rules (renumber_globals (gas_global_of m) f.body) = .error e

/-- Some (renumbered) body contains an instruction the rules forbid. -/
def has_forbidden (rules : Rules) (m : GasModule) : Prop :=
  ∃ f ∈ m.funcs, ∃ i ∈ renumber_globals (gas_global_of m) f.body, rules i = none

/-- The input already contains an import matching the gas-global slot. -/
def has_conflicting_import (name : String) (m : GasModule) : Prop :=
  1 ≤ count_gas_imports name m.imports

/-- Some element or data segment offset initializer fails the check. -/
def has_bad_offset (m : GasModule) : Prop :=
  ¬ (m.elem_offsets.all offset_ok = true ∧ m.data_offsets.all offset_ok = true)

/-- Whether an instruction is `memory.grow`. -/
def is_grow (i : Instruction) : Bool :=
  match i with
  | .GrowMemory _ => true
  | _ => false

/-- Some body's scan succeeds and flags a dynamic-cost instruction other
than `memory.grow` (for which no thunk can be synthesised). -/
def has_unsupported_dyn (rules : Rules) (m : GasModule) : Prop :=
  ∃ f ∈ m.funcs, ∃ r,
    determine_metered_blocks rules (renumber_globals (gas_global_of m) f.body) = .ok r ∧
    ∃ i ∈ r.2, is_grow i = false

/-- Whether an instruction falls into the default arm of the scan loop
(neither structured control, branch, return, nor `i32.const`). -/
def is_plain (i : Instruction) : Bool :=
  match i with
  | .Block _ | .If _ | .Loop _ | .End | .Else | .Br _ | .BrIf _
  | .BrTable _ _ | .Return | .I32Const _ => false
  | _ => true

/-- The import matching the exact triple of the uniqueness claim: the
caller-chosen module name, the field GAS_COUNTER_NAME, and a mutable i64
global. -/
def is_gas_import_i64 (name : String) (p : ImportEntry) : Bool :=
  decide (p.module = name) && decide (p.field = GAS_COUNTER_NAME) &&
    decide (p.ext = Ext.globalImp ValueType.i64 true)

/-- Number of imports matching the exact mutable-i64 gas slot. -/
def count_gas_imports_i64 (name : String) (l : List ImportEntry) : Nat :=
  (l.filter (is_gas_import_i64 name)).length

/-! ### Concrete inputs used by counterexamples and witnesses -/

/-- Rules that assign a linear cost to an instruction (`i32.add`) whose
signature the thunk builder does not support. -/
def linear_add_rules : Rules := fun i =>
  match i with
  | .I32Add => some (.Linear 1 1)
  | _ => some (.Fixed 1)

/-- A module whose only body contains a dynamic-cost `i32.add` under
`linear_add_rules`. -/
def add_module : GasModule :=
  { imports := [], funcs := [⟨[], [], [.I32Add, .End]⟩],
    exports := [], elem_offsets := [], data_offsets := [] }

/-- Rules under which the constant-folded linear cost wraps around the u64
range: base 2^64 - 1, one unit per page. -/
def overflow_rules : Rules := fun i =>
  match i with
  | .GrowMemory _ => some (.Linear (u64Mod - 1) 1)
  | _ => some (.Fixed 0)

/-- Rules that meter `memory.grow` linearly and everything else at one. -/
def grow_rules : Rules := fun i =>
  match i with
  | .GrowMemory _ => some (.Linear 1 1)
  | _ => some (.Fixed 1)

/-- A module with two distinct dynamic-cost instructions in one body, so
that thunk-index assignment depends on the set-iteration order. -/
def two_grow_module : GasModule :=
  { imports := [], funcs := [⟨[], [], [.GrowMemory 0, .Drop, .GrowMemory 1, .End]⟩],
    exports := [], elem_offsets := [], data_offsets := [] }

/-- Constant-cost rules charging one unit per instruction, as
ConstantCostRules::default does. -/
def c1_rules : Rules := fun _ => some (.Fixed 1)

/-- The function body of the ifelse unit test of the source. -/
def c1_prog : List Instruction :=
  [.GetGlobal 0, .If .empty, .GetGlobal 0, .GetGlobal 0, .GetGlobal 0, .Else,
   .GetGlobal 0, .GetGlobal 0, .End, .GetGlobal 0, .End]

/-- The metered blocks of c1_prog under c1_rules. -/
def c1_blocks : List MeteredBlock := [⟨0, 3⟩, ⟨2, 3⟩, ⟨6, 2⟩]

/-! ### Stack limiter (src/stack_limiter/mod.rs) -/

/-- A defined function as the stack limiter sees it: the parameters come
from its type, `local_groups` is the vector of (count, type) entries of the
encoded locals declaration that `wasmparser`'s `LocalsReader` iterates, and
`ops` is the operator sequence. -/
structure FunctionBody where
  params : List ValueType
  local_groups : List (Nat × ValueType)
  ops : List Instruction
deriving DecidableEq, Repr

/-- The value the source calls `locals_count`:
`get_locals_reader()?.get_count()`, which in wasmparser is the number of
(count, type) entries of the locals vector  — not the number of declared
locals and not including parameters. -/
def locals_count (fb : FunctionBody) : Nat := fb.local_groups.length

/-- The locals count as the specification describes it: the function's
parameters plus all declared local variables. -/
def spec_locals_count (fb : FunctionBody) : Nat :=
  fb.params.length + (fb.local_groups.map Prod.fst).sum

/-- Source `compute_stack_cost` for a defined function, with the result of
`max_height::compute` (whose module is not among the sources) supplied as
the `max_stack_height` argument: `locals_count` plus the maximal stack
height, with a checked u32 addition. -/
def compute_stack_cost (max_stack_height : Nat) (fb : FunctionBody) : Except String Nat :=
  if locals_count fb + max_stack_height < u32Mod then
    .ok (locals_count fb + max_stack_height)
  else
    .error "overflow in adding locals_count and max_stack_height"

/-- Source `compute_stack_costs`: zero for every imported function, and
`compute_stack_cost` for every defined one. -/
def compute_stack_costs (num_imported : Nat) (bodies : List FunctionBody)
    (maxH : Nat → Nat) : Except String (List Nat) :=
  (List.range (num_imported + bodies.length)).mapM fun idx =>
    if idx < num_imported then .ok 0
    else
      match bodies.get? (idx - num_imported) with
      | none => .error "function body is out of bounds"
      | some fb => compute_stack_cost (maxH (idx - num_imported)) fb

/-- The stack limiter's Context. -/
structure SLContext where
  stack_height_global_idx : Nat
  func_stack_costs : List Nat
  stack_limit : Nat
deriving Repr

/-- Source `Context::stack_cost`. -/
def SLContext.stack_cost (ctx : SLContext) (f : Nat) : Option Nat :=
  ctx.func_stack_costs.get? f

/-- The `instrument_call!` macro: preamble, guarded check, the original
call, postamble.  The u32 cost and limit are cast to i32 exactly where the
source writes `as i32`. -/
def instrument_call (callee cost gbl limit : Nat) : List Instruction :=
  [.GetGlobal gbl, .I32Const (i32_of_u32 cost), .I32Add, .SetGlobal gbl,
   .GetGlobal gbl, .I32Const (i32_of_u32 limit), .I32GtU, .If .empty,
   .Unreachable, .End,
   .Call callee,
   .GetGlobal gbl, .I32Const (i32_of_u32 cost), .I32Sub, .SetGlobal gbl]

/-- The filter in `instrument_function` selecting the calls to instrument:
direct calls whose callee has a known, positive stack cost. -/
def call_filter (ctx : SLContext) (off : Nat) (op : Instruction) :
    Option (Nat × Nat × Nat) :=
  match op with
  | .Call f =>
    match ctx.stack_cost f with
    | some c => if 0 < c then some (off, f, c) else none
    | none => none
  | _ => none

/-- The collected calls of a body, in offset order. -/
def calls_of (ctx : SLContext) (ops : List Instruction) : List (Nat × Nat × Nat) :=
  ops.enum.filterMap fun p => call_filter ctx p.1 p.2

/-- The copy loop of `instrument_function`: emit the instrumented sequence
in place of a selected call, copy every other operator unchanged (the
`DefaultTranslator` maps each operator to itself). -/
def instrument_loop (ctx : SLContext) :
    List Instruction → Nat → List (Nat × Nat × Nat) →
    List Instruction × List (Nat × Nat × Nat)
  | [], _, calls => ([], calls)
  | op :: rest, pos, [] =>
    let r := instrument_loop ctx rest (pos + 1) []
    (op :: r.1, r.2)
  | op :: rest, pos, c :: cs =>
    if c.1 = pos then
      let r := instrument_loop ctx rest (pos + 1) cs
      (instrument_call c.2.1 c.2.2 ctx.stack_height_global_idx ctx.stack_limit ++ r.1, r.2)
    else
      let r := instrument_loop ctx rest (pos + 1) (c :: cs)
      (op :: r.1, r.2)

/-- Source `instrument_function`. -/
def instrument_function (ctx : SLContext) (ops : List Instruction) :
    Except String (List Instruction) :=
  match instrument_loop ctx ops 0 (calls_of ctx ops) with
  | (out, []) => .ok out
  | (_, _ :: _) => .error "not all calls were used"

/-- The per-operator description of the rewriting: a direct call with a
known positive stack cost becomes the instrumented sequence, everything
else is copied unchanged. -/
def sl_expand (ctx : SLContext) (op : Instruction) : List Instruction :=
  match op with
  | .Call f =>
    match ctx.stack_cost f with
    | some c =>
      if 0 < c then instrument_call f c ctx.stack_height_global_idx ctx.stack_limit
      else [op]
    | none => [op]
  | _ => [op]

/-- A global of the module's own global section. -/
structure GlobalEntry where
  val_type : ValueType
  mutFlag : Bool
  init : Int
deriving DecidableEq, Repr

/-- The part of a module the stack limiter's global generation reads: the
number of imported globals (which the source never consults) and the
module's own global section, absent when the module declares none. -/
structure SLModule where
  num_imported_globals : Nat
  global_section : Option (List GlobalEntry)
deriving DecidableEq, Repr

/-- Source `generate_stack_height_global`: re-encode the existing defined
globals, append the new mutable i32 global initialised to 0, and return the
count of pre-existing defined globals as the new global's index. -/
def generate_stack_height_global (m : SLModule) : Nat × SLModule :=
  let index :=
    match m.global_section with
    | some gs => gs.length
    | none => 0
  let existing :=
    match m.global_section with
    | some gs => gs
    | none => []
  (index, { m with global_section := some (existing ++ [⟨.i32, true, 0⟩]) })

/-- The two constructors of `Except`, as a sum. -/
def exceptToSum {ε α : Type} : Except ε α → ε ⊕ α
  | .error e => .inl e
  | .ok a => .inr a

/-- Results of the embedded passes can be compared by evaluation. -/
instance exceptDecidableEq {ε α : Type} [DecidableEq ε] [DecidableEq α] :
    DecidableEq (Except ε α) := fun x y =>
  decidable_of_iff (exceptToSum x = exceptToSum y)
    (by cases x <;> cases y <;> simp [exceptToSum])

/-- A module whose only body flags exactly one dynamic-cost instruction
under `grow_rules`. -/
def one_grow_module : GasModule :=
  { imports := [], funcs := [⟨[], [], [.GrowMemory 0, .End]⟩],
    exports := [], elem_offsets := [], data_offsets := [] }

/-- The value of `last_const` after scanning an instruction: the operand of
`i32.const`, and `None` for every other instruction. -/
def remembered_const (i : Instruction) : Option Int :=
  match i with
  | .I32Const v => some v
  | _ => none

end WasmInstrument

namespace WasmInstrument

theorem insert_loop_nil (gas_func : Nat) :
    ∀ (instrs : List Instruction) (pos : Nat),
    insert_loop gas_func instrs pos [] = (instrs, []) := by
  intro instrs
  induction instrs with
  | nil => intro pos; rfl
  | cons i rest ih => intro pos; simp [insert_loop, ih]

theorem enumFrom_flatMap_snd :
    ∀ (l : List Instruction) (n : Nat),
    (List.enumFrom n l).flatMap (fun p => [p.2]) = l := by
  intro l
  induction l with
  | nil => intro n; rfl
  | cons i rest ih => intro n; simp [List.enumFrom_cons, List.flatMap_cons, ih]

theorem insert_loop_sound (gas_func : Nat) :
    ∀ (instrs : List Instruction) (pos : Nat) (blocks : List MeteredBlock),
    (insert_loop gas_func instrs pos blocks).2 = [] →
    (∀ b ∈ blocks, pos ≤ b.start_pos ∧ b.start_pos < pos + instrs.length) ∧
    (blocks.map MeteredBlock.start_pos).Pairwise (· < ·) ∧
    (insert_loop gas_func instrs pos blocks).1 =
      (List.enumFrom pos instrs).flatMap (fun p =>
        (match blocks.find? (fun b => decide (b.start_pos = p.1)) with
         | some b => metering_pair gas_func b
         | none => []) ++ [p.2]) := by
  intro instrs
  induction instrs with
  | nil =>
    intro pos blocks h
    simp only [insert_loop] at h
    subst h
    refine ⟨by simp, by simp, ?_⟩
    rfl
  | cons instr rest ih =>
    intro pos blocks h
    match blocks with
    | [] =>
      refine ⟨by simp, by simp, ?_⟩
      rw [insert_loop_nil]
      simp only [List.find?_nil, List.nil_append]
      exact (enumFrom_flatMap_snd (instr :: rest) pos).symm
    | b :: bs =>
      by_cases hb : b.start_pos = pos
      · simp only [insert_loop, if_pos hb] at h ⊢
        obtain ⟨hbd, hpw, hout⟩ := ih (pos + 1) bs h
        refine ⟨?_, ?_, ?_⟩
        · intro x hx
          rcases List.mem_cons.mp hx with hx | hx
          · subst hx; simp only [List.length_cons]; omega
          · have := hbd x hx; simp only [List.length_cons]; omega
        · rw [List.map_cons, List.pairwise_cons]
          refine ⟨?_, hpw⟩
          intro y hy
          obtain ⟨x, hx, rfl⟩ := List.mem_map.mp hy
          have := hbd x hx; omega
        · rw [List.enumFrom_cons, List.flatMap_cons]
          have hfind : (b :: bs).find? (fun c => decide (c.start_pos = pos)) = some b :=
            List.find?_cons_of_pos _ (by simp [hb])
          simp only [hfind]
          rw [hout]
          have hcongr :
              (List.enumFrom (pos + 1) rest).flatMap (fun p =>
                (match (b :: bs).find? (fun c => decide (c.start_pos = p.1)) with
                 | some c => metering_pair gas_func c
                 | none => []) ++ [p.2]) =
              (List.enumFrom (pos + 1) rest).flatMap (fun p =>
                (match bs.find? (fun c => decide (c.start_pos = p.1)) with
                 | some c => metering_pair gas_func c
                 | none => []) ++ [p.2]) := by
            apply List.flatMap_congr
            intro p hp
            obtain ⟨i, x⟩ := p
            have hmem := List.mem_enumFrom hp
            have : (b :: bs).find? (fun c => decide (c.start_pos = i)) =
                bs.find? (fun c => decide (c.start_pos = i)) := by
              apply List.find?_cons_of_neg
              simp only [decide_eq_true_eq]
              omega
            rw [this]
          rw [hcongr]
          simp [metering_pair]
      · simp only [insert_loop, if_neg hb] at h ⊢
        obtain ⟨hbd, hpw, hout⟩ := ih (pos + 1) (b :: bs) h
        refine ⟨?_, hpw, ?_⟩
        · intro x hx
          have := hbd x hx; simp only [List.length_cons]; omega
        · rw [List.enumFrom_cons, List.flatMap_cons]
          have hfind : (b :: bs).find? (fun c => decide (c.start_pos = pos)) = none := by
            rw [List.find?_eq_none]
            intro x hx
            have := hbd x hx
            simp only [decide_eq_true_eq]
            omega
          simp only [hfind, List.nil_append]
          rw [hout]
          rfl

theorem insert_loop_complete (gas_func : Nat) :
    ∀ (instrs : List Instruction) (pos : Nat) (blocks : List MeteredBlock),
    (∀ b ∈ blocks, pos ≤ b.start_pos ∧ b.start_pos < pos + instrs.length) →
    (blocks.map MeteredBlock.start_pos).Pairwise (· < ·) →
    (insert_loop gas_func instrs pos blocks).2 = [] := by
  intro instrs
  induction instrs with
  | nil =>
    intro pos blocks hbd _
    match blocks with
    | [] => rfl
    | b :: bs =>
      have := hbd b (List.mem_cons_self b bs)
      simp only [List.length_nil] at this
      omega
  | cons instr rest ih =>
    intro pos blocks hbd hpw
    match blocks with
    | [] => rw [insert_loop_nil]
    | b :: bs =>
      by_cases hb : b.start_pos = pos
      · simp only [insert_loop, if_pos hb]
        apply ih (pos + 1) bs
        · intro x hx
          have h1 := hbd x (List.mem_cons_of_mem b hx)
          have h2 := (List.pairwise_cons.mp (by simpa using hpw)).1 x.start_pos
            (List.mem_map.mpr ⟨x, hx, rfl⟩)
          simp only [List.length_cons] at h1
          omega
        · exact (List.pairwise_cons.mp (by simpa using hpw)).2
      · simp only [insert_loop, if_neg hb]
        apply ih (pos + 1) (b :: bs)
        · intro x hx
          rcases List.mem_cons.mp hx with hx | hx
          · subst hx
            have := hbd x (List.mem_cons_self x bs)
            simp only [List.length_cons] at this
            omega
          · have h1 := hbd x (List.mem_cons_of_mem b hx)
            have h2 := (List.pairwise_cons.mp (by simpa using hpw)).1 x.start_pos
              (List.mem_map.mpr ⟨x, hx, rfl⟩)
            have h3 := hbd b (List.mem_cons_self b bs)
            simp only [List.length_cons] at h1
            omega
        · exact hpw

end WasmInstrument

namespace WasmInstrument

theorem except_bind_ok {ε α β : Type} {x : Except ε α} {f : α → Except ε β} {b : β}
    (h : (x >>= f) = .ok b) : ∃ a, x = .ok a ∧ f a = .ok b := by
  cases x with
  | error e => exact absurd h (by simp [Bind.bind, Except.bind])
  | ok a => exact ⟨a, rfl, h⟩

theorem incrementG_eq {c : CounterG} {cursor v : Nat} {c' : CounterG}
    (h : c.increment cursor v = .ok c') :
    ∃ top rest, c.stack = top :: rest ∧
      top.active_metered_block.cost + v < u64Mod ∧
      c' = { stack :=
              { top with active_metered_block :=
                { top.active_metered_block with
                  cost := top.active_metered_block.cost + v,
                  instrs := top.active_metered_block.instrs ++ [cursor] } } :: rest,
             finalized_blocks := c.finalized_blocks } := by
  rcases c with ⟨stack, fin⟩
  cases stack with
  | nil => exact absurd h (by simp [CounterG.increment])
  | cons top rest =>
    simp only [CounterG.increment] at h
    split at h
    · refine ⟨top, rest, rfl, by assumption, ?_⟩
      cases h
      rfl
    · exact absurd h (by simp)

theorem CInv_mono {rules : Rules} {instrs : List Instruction} {n m : Nat} {c : CounterG}
    (H : CInv rules instrs n c) (hnm : n ≤ m) : CInv rules instrs m c := by
  obtain ⟨h1, h2, h3, h4, h5, h6, h7, h8⟩ := H
  exact ⟨h1, fun s hs => lt_of_lt_of_le (h2 s hs) hnm, h3,
    fun s hs => le_trans (h4 s hs) hnm, h5, h6, h7, h8⟩

theorem branch_updateG_actives :
    ∀ (idx : List Nat) (s s' : List ControlBlockG),
    CounterG.branch_update s idx = .ok s' →
    s'.map (fun b => b.active_metered_block) = s.map (fun b => b.active_metered_block) ∧
    s'.length = s.length := by
  intro idx
  induction idx with
  | nil =>
    intro s s' h
    simp only [CounterG.branch_update] at h
    cases h
    exact ⟨rfl, rfl⟩
  | cons index rest ih =>
    intro s s' h
    match s with
    | [] => exact absurd h (by simp [CounterG.branch_update])
    | top :: below =>
      simp only [CounterG.branch_update] at h
      split at h
      · split at h
        · exact ih _ _ h
        · obtain ⟨h1, h2⟩ := ih _ _ h
          simp only [List.map_cons, List.length_cons] at h1 h2 ⊢
          exact ⟨h1, h2⟩
      · exact absurd h (by simp)


theorem fmbG_spec {rules : Rules} {instrs : List Instruction} {c c' : CounterG} {cursor : Nat}
    (h : c.finalize_metered_block cursor = .ok c')
    (Hcost : ∀ F ∈ c.finalized_blocks, 0 < F.cost)
    (Hfb : ∀ s ∈ fin_startsG c, s ≤ cursor)
    (Hnd : (fin_startsG c).Nodup)
    (Hsb : ∀ s ∈ stack_startsG c, s ≤ cursor)
    (Hpw : (stack_startsG c).Pairwise (fun x y => y ≤ x))
    (Hdj : ∀ s ∈ stack_startsG c, s ∉ fin_startsG c)
    (Hcf : ∀ B ∈ c.finalized_blocks, cost_ok rules instrs B)
    (Hca : ∀ B ∈ active_blocksG c, cost_ok rules instrs B) :
    (∀ F ∈ c'.finalized_blocks, 0 < F.cost) ∧
    (∀ s ∈ fin_startsG c', s ≤ cursor) ∧
    (fin_startsG c').Nodup ∧
    stack_startsG c' = (cursor + 1) :: (stack_startsG c).tail ∧
    (∀ s ∈ (stack_startsG c).tail, s ∉ fin_startsG c') ∧
    (∀ B ∈ c'.finalized_blocks, cost_ok rules instrs B) ∧
    (∀ B ∈ active_blocksG c', cost_ok rules instrs B) := by
  rcases c with ⟨stack, fin⟩
  cases stack with
  | nil => exact absurd h (by simp [CounterG.finalize_metered_block])
  | cons top rest =>
    simp only [stack_startsG, fin_startsG, active_blocksG, List.map_cons, List.tail_cons] at *
    cases rest with
    | nil =>
      simp only [CounterG.finalize_metered_block] at h
      split at h
      · -- push
        cases h
        have hdj0 := Hdj top.active_metered_block.start_pos (by simp)
        refine ⟨?_, ?_, ?_, ?_, ?_, ?_, ?_⟩
        · intro F hF
          rcases List.mem_append.mp hF with hF | hF
          · exact Hcost F hF
          · simp at hF; subst hF; assumption
        · intro s hs
          simp only [fin_startsG, List.map_append, List.map_cons, List.map_nil] at hs
          rcases List.mem_append.mp hs with hs | hs
          · exact Hfb s hs
          · simp at hs; subst hs; exact Hsb _ (by simp)
        · simp only [fin_startsG, List.map_append, List.map_cons, List.map_nil,
            List.nodup_append]
          exact ⟨Hnd, List.nodup_singleton _, by
            intro s hs hs2; simp at hs2; subst hs2; exact hdj0 hs⟩
        · simp [stack_startsG]
        · intro s hs; simp at hs
        · intro B hB
          rcases List.mem_append.mp hB with hB | hB
          · exact Hcf B hB
          · simp at hB; subst hB; exact Hca _ (by simp)
        · intro B hB
          simp only [active_blocksG, List.map_cons, List.map_nil, List.mem_singleton] at hB
          subst hB
          simp [cost_ok, block_sum, u64Mod]
      · -- no push
        cases h
        refine ⟨Hcost, Hfb, Hnd, by simp [stack_startsG], ?_, Hcf, ?_⟩
        · intro s hs; simp at hs
        · intro B hB
          simp only [active_blocksG, List.map_cons, List.map_nil, List.mem_singleton] at hB
          subst hB
          simp [cost_ok, block_sum, u64Mod]
    | cons prev rest' =>
      simp only [CounterG.finalize_metered_block] at h
      have hpw1 := List.pairwise_cons.mp Hpw
      split at h
      · -- merge into prev
        rename_i hmerge
        cases h
        refine ⟨Hcost, Hfb, Hnd, by simp [stack_startsG], ?_, Hcf, ?_⟩
        · intro s hs
          exact Hdj s (List.mem_cons_of_mem _ hs)
        · intro B hB
          simp only [active_blocksG, List.map_cons, List.mem_cons] at hB
          rcases hB with hB | hB | hB
          · subst hB; simp [cost_ok, block_sum, u64Mod]
          · subst hB
            have h1 := Hca _ (List.mem_cons_self _ _)
            have h2 := Hca _ (List.mem_cons_of_mem _ (List.mem_cons_self _ _))
            simp only [cost_ok, block_sum, List.map_append, List.sum_append] at h1 h2 ⊢
            rw [h1, h2]
            exact (Nat.add_mod _ _ _).symm
          · exact Hca _ (List.mem_cons_of_mem _ (List.mem_cons_of_mem _ hB))
      · split at h
        · -- push
          rename_i hmerge hpos
          cases h
          have hdj0 := Hdj top.active_metered_block.start_pos (by simp)
          have hge : prev.active_metered_block.start_pos ≤ top.active_metered_block.start_pos :=
            hpw1.1 _ (by simp)
          refine ⟨?_, ?_, ?_, ?_, ?_, ?_, ?_⟩
          · intro F hF
            rcases List.mem_append.mp hF with hF | hF
            · exact Hcost F hF
            · simp at hF; subst hF; assumption
          · intro s hs
            simp only [fin_startsG, List.map_append, List.map_cons, List.map_nil] at hs
            rcases List.mem_append.mp hs with hs | hs
            · exact Hfb s hs
            · simp at hs; subst hs; exact Hsb _ (by simp)
          · simp only [fin_startsG, List.map_append, List.map_cons, List.map_nil,
              List.nodup_append]
            exact ⟨Hnd, List.nodup_singleton _, by
              intro s hs hs2; simp at hs2; subst hs2; exact hdj0 hs⟩
          · simp [stack_startsG]
          · intro s hs
            simp only [fin_startsG, List.map_append, List.map_cons, List.map_nil]
            intro hmem
            rcases List.mem_append.mp hmem with hmem | hmem
            · exact Hdj s (List.mem_cons_of_mem _ hs) hmem
            · simp at hmem
              -- s is in the tail, so s ≤ prev.start < top.start = closing.start
              have hsle : s ≤ prev.active_metered_block.start_pos := by
                rcases List.mem_cons.mp hs with hs | hs
                · exact le_of_eq hs
                · exact (List.pairwise_cons.mp hpw1.2).1 s hs
              omega
          · intro B hB
            rcases List.mem_append.mp hB with hB | hB
            · exact Hcf B hB
            · simp at hB; subst hB; exact Hca _ (by simp)
          · intro B hB
            have Hca' := Hca
            simp only [List.map_cons, List.mem_cons] at Hca'
            simp only [active_blocksG, List.map_cons, List.mem_cons] at hB
            rcases hB with hB | hB | hB
            · subst hB; simp [cost_ok, block_sum, u64Mod]
            · exact Hca' _ (Or.inr (Or.inl hB))
            · exact Hca' _ (Or.inr (Or.inr hB))
        · -- no push
          cases h
          refine ⟨Hcost, Hfb, Hnd, by simp [stack_startsG], ?_, Hcf, ?_⟩
          · intro s hs
            exact Hdj s (List.mem_cons_of_mem _ hs)
          · intro B hB
            have Hca' := Hca
            simp only [List.map_cons, List.mem_cons] at Hca'
            simp only [active_blocksG, List.map_cons, List.mem_cons] at hB
            rcases hB with hB | hB | hB
            · subst hB; simp [cost_ok, block_sum, u64Mod]
            · exact Hca' _ (Or.inr (Or.inl hB))
            · exact Hca' _ (Or.inr (Or.inr hB))


theorem stack_startsG_eq {c : CounterG} :
    stack_startsG c = (active_blocksG c).map MeteredBlockG.start_pos := by
  simp [stack_startsG, active_blocksG, List.map_map]

theorem CInv_transport {rules : Rules} {instrs : List Instruction} {n : Nat}
    {c c' : CounterG} (H : CInv rules instrs n c)
    (hact : active_blocksG c' = active_blocksG c)
    (hfin : c'.finalized_blocks = c.finalized_blocks) :
    CInv rules instrs n c' := by
  obtain ⟨H1, H2, H3, H4, H5, H6, H7, H8⟩ := H
  have hst : stack_startsG c' = stack_startsG c := by
    rw [stack_startsG_eq, stack_startsG_eq, hact]
  have hfs : fin_startsG c' = fin_startsG c := by
    simp [fin_startsG, hfin]
  unfold CInv
  rw [hfin, hact, hst, hfs]
  exact ⟨H1, H2, H3, H4, H5, H6, H7, H8⟩

theorem fmbG_CInv {rules : Rules} {instrs : List Instruction} {cursor : Nat}
    {c c' : CounterG} (h : c.finalize_metered_block cursor = .ok c')
    (H : CInv rules instrs cursor c) : CInv rules instrs (cursor + 1) c' := by
  obtain ⟨H1, H2, H3, H4, H5, H6, H7, H8⟩ := H
  obtain ⟨P1, P2, P3, P4, P5, P6, P7⟩ :=
    fmbG_spec h H1 (fun s hs => le_of_lt (H2 s hs)) H3 H4 H5 H6 H7 H8
  refine ⟨P1, fun s hs => Nat.lt_succ_of_le (P2 s hs), P3, ?_, ?_, ?_, P6, P7⟩
  · rw [P4]
    intro s hs
    rcases List.mem_cons.mp hs with hs | hs
    · omega
    · exact Nat.le_succ_of_le (H4 s (List.mem_of_mem_tail hs))
  · rw [P4]
    rw [List.pairwise_cons]
    refine ⟨?_, H5.tail⟩
    intro y hy
    exact Nat.le_succ_of_le (H4 y (List.mem_of_mem_tail hy))
  · rw [P4]
    intro s hs
    rcases List.mem_cons.mp hs with hs | hs
    · subst hs
      intro hmem
      exact absurd (P2 _ hmem) (by omega)
    · exact P5 s hs

theorem branchG_CInv {rules : Rules} {instrs : List Instruction} {cursor : Nat}
    {idx : List Nat} {c c' : CounterG} (h : c.branch cursor idx = .ok c')
    (H : CInv rules instrs cursor c) : CInv rules instrs (cursor + 1) c' := by
  unfold CounterG.branch at h
  obtain ⟨c1, h1, h2⟩ := except_bind_ok h
  obtain ⟨s', h3, h4⟩ := except_bind_ok h2
  have hC1 := fmbG_CInv h1 H
  have hupd := branch_updateG_actives idx _ _ h3
  have hok : c' = { c1 with stack := s' } := by
    injection h4 with h4
    exact h4.symm
  subst hok
  exact CInv_transport hC1 (by simp [active_blocksG, hupd.1]) rfl

theorem incrementG_CInv {rules : Rules} {instrs : List Instruction} {cursor : Nat}
    {cost : Nat} {c c' : CounterG} (h : c.increment cursor cost = .ok c')
    (hc : cost = contrib rules instrs cursor)
    (H : CInv rules instrs cursor c) : CInv rules instrs cursor c' := by
  obtain ⟨H1, H2, H3, H4, H5, H6, H7, H8⟩ := H
  obtain ⟨top, rest, hstack, hlt, rfl⟩ := incrementG_eq h
  simp only [stack_startsG, fin_startsG, active_blocksG, hstack, List.map_cons] at H4 H5 H6 H8
  refine ⟨H1, H2, H3, ?_, ?_, ?_, H7, ?_⟩ <;>
    simp only [stack_startsG, fin_startsG, active_blocksG, List.map_cons]
  · exact H4
  · exact H5
  · exact H6
  intro B hB
  rcases List.mem_cons.mp hB with hB | hB
  · subst hB
    have hca := H8 _ (List.mem_cons_self _ _)
    simp only [cost_ok, block_sum, List.map_append, List.sum_append, List.map_cons,
      List.map_nil, List.sum_cons, List.sum_nil, Nat.add_zero] at hca ⊢
    rw [hca] at hlt ⊢
    rw [← hc]
    have hcu : cost % u64Mod = cost := Nat.mod_eq_of_lt (by omega)
    rw [Nat.add_mod, hcu, Nat.mod_eq_of_lt hlt]
  · exact H8 _ (List.mem_cons_of_mem _ hB)


theorem beginG_CInv {rules : Rules} {instrs : List Instruction} {n p : Nat} {lp : Bool}
    {c : CounterG} (H : CInv rules instrs n c) (hp : p ≤ n)
    (hge : ∀ y ∈ stack_startsG c, y ≤ p) (hnf : p ∉ fin_startsG c) :
    CInv rules instrs n (c.begin_control_block p lp) := by
  obtain ⟨H1, H2, H3, H4, H5, H6, H7, H8⟩ := H
  refine ⟨H1, H2, H3, ?_, ?_, ?_, H7, ?_⟩ <;>
    simp only [CounterG.begin_control_block, stack_startsG, fin_startsG, active_blocksG,
      List.map_cons]
  · intro s hs
    rcases List.mem_cons.mp hs with hs | hs
    · omega
    · exact H4 s hs
  · exact List.pairwise_cons.mpr ⟨hge, H5⟩
  · intro s hs
    rcases List.mem_cons.mp hs with hs | hs
    · subst hs; exact hnf
    · exact H6 s hs
  · intro B hB
    rcases List.mem_cons.mp hB with hB | hB
    · subst hB
      simp [cost_ok, block_sum, u64Mod]
    · exact H8 _ hB

theorem fcbG_CInv {rules : Rules} {instrs : List Instruction} {cursor : Nat}
    {c c' : CounterG} (h : c.finalize_control_block cursor = .ok c')
    (H : CInv rules instrs cursor c) : CInv rules instrs (cursor + 1) c' := by
  obtain ⟨H1, H2, H3, H4, H5, H6, H7, H8⟩ := H
  unfold CounterG.finalize_control_block at h
  obtain ⟨c1, h1, h2⟩ := except_bind_ok h
  obtain ⟨P1, P2, P3, P4, P5, P6, P7⟩ :=
    fmbG_spec h1 H1 (fun s hs => le_of_lt (H2 s hs)) H3 H4 H5 H6 H7 H8
  cases hstack : c1.stack with
  | nil =>
    simp [stack_startsG, hstack] at P4
  | cons closing rest =>
    rw [hstack] at h2
    cases rest with
    | nil =>
      have hc' : c' = { stack := [], finalized_blocks := c1.finalized_blocks } := by
        simp only [] at h2
        injection h2 with h2
        exact h2.symm
      subst hc'
      refine ⟨P1, ?_, ?_, ?_, ?_, ?_, P6, ?_⟩
      · intro s hs
        exact Nat.lt_succ_of_le (P2 s (by simpa [fin_startsG] using hs))
      · simpa [fin_startsG] using P3
      · intro s hs; simp [stack_startsG] at hs
      · simp [stack_startsG]
      · intro s hs; simp [stack_startsG] at hs
      · intro B hB; simp [active_blocksG] at hB
    | cons prev rest' =>
      have htail : (stack_startsG c1).tail = (stack_startsG c).tail := by
        rw [P4, List.tail_cons]
      have hc1tail : (stack_startsG c).tail =
          prev.active_metered_block.start_pos ::
            rest'.map (fun b => b.active_metered_block.start_pos) := by
        rw [← htail]
        simp [stack_startsG, hstack]
      have hacts : active_blocksG c1 =
          closing.active_metered_block :: prev.active_metered_block ::
            rest'.map (fun b => b.active_metered_block) := by
        simp [active_blocksG, hstack]
      have hmemtail : ∀ s, (s = prev.active_metered_block.start_pos ∨
          s ∈ rest'.map (fun b => b.active_metered_block.start_pos)) →
          s ∈ stack_startsG c := by
        intro s hs
        refine List.mem_of_mem_tail ?_
        rw [hc1tail]
        exact List.mem_cons.mpr hs
      have hpwtail : List.Pairwise (fun x y => y ≤ x)
          (prev.active_metered_block.start_pos ::
            rest'.map (fun b => b.active_metered_block.start_pos)) := by
        rw [← hc1tail]; exact H5.tail
      have hdjtail : ∀ s, (s = prev.active_metered_block.start_pos ∨
          s ∈ rest'.map (fun b => b.active_metered_block.start_pos)) →
          s ∉ fin_startsG c1 := by
        intro s hs
        refine P5 s ?_
        rw [hc1tail]
        exact List.mem_cons.mpr hs
      simp only [] at h2
      split at h2
      · -- a branch escapes: finalize the parent's active metered block too
        obtain ⟨Q1, Q2, Q3, Q4, Q5, Q6, Q7⟩ := fmbG_spec h2 P1 P2 P3
          (by
            intro s hs
            simp only [stack_startsG, List.map_cons, List.mem_cons] at hs
            exact H4 s (hmemtail s hs))
          (by simpa [stack_startsG] using hpwtail)
          (by
            intro s hs
            simp only [stack_startsG, List.map_cons, List.mem_cons] at hs
            exact hdjtail s hs)
          P6
          (by
            intro B hB
            simp only [active_blocksG, List.map_cons, List.mem_cons] at hB
            refine P7 B ?_
            rw [hacts]
            rcases hB with hB | hB
            · subst hB
              exact List.mem_cons_of_mem _ (List.mem_cons_self _ _)
            · exact List.mem_cons_of_mem _ (List.mem_cons_of_mem _ hB))
        have hq4' : stack_startsG c' = (cursor + 1) ::
            rest'.map (fun b => b.active_metered_block.start_pos) := by
          rw [Q4]
          simp [stack_startsG]
        refine ⟨Q1, fun s hs => Nat.lt_succ_of_le (Q2 s hs), Q3, ?_, ?_, ?_, Q6, Q7⟩
        · rw [hq4']
          intro s hs
          rcases List.mem_cons.mp hs with hs | hs
          · omega
          · exact Nat.le_succ_of_le (H4 s (hmemtail s (Or.inr hs)))
        · rw [hq4']
          refine List.pairwise_cons.mpr ⟨?_, hpwtail.tail⟩
          intro y hy
          exact Nat.le_succ_of_le (H4 y (hmemtail y (Or.inr hy)))
        · rw [hq4']
          intro s hs
          rcases List.mem_cons.mp hs with hs | hs
          · subst hs
            intro hmem
            exact absurd (Q2 _ hmem) (by omega)
          · refine Q5 s ?_
            simpa [stack_startsG] using hs
      · -- no escaping branch: just pop
        have hc' : c' = ({ stack := ({ lowest_forward_br_target := min prev.lowest_forward_br_target closing.lowest_forward_br_target, active_metered_block := prev.active_metered_block, is_loop := prev.is_loop } : ControlBlockG) :: rest', finalized_blocks := c1.finalized_blocks } : CounterG) := by
          injection h2 with h2
          exact h2.symm
        subst hc'
        refine ⟨P1, ?_, ?_, ?_, ?_, ?_, P6, ?_⟩
        · intro s hs
          exact Nat.lt_succ_of_le (P2 s (by simpa [fin_startsG] using hs))
        · simpa [fin_startsG] using P3
        · intro s hs
          simp only [stack_startsG, List.map_cons, List.mem_cons] at hs
          exact Nat.le_succ_of_le (H4 s (hmemtail s hs))
        · simpa [stack_startsG] using hpwtail
        · intro s hs
          simp only [stack_startsG, List.map_cons, List.mem_cons] at hs
          have := hdjtail s hs
          simpa [fin_startsG] using this
        · intro B hB
          simp only [active_blocksG, List.map_cons, List.mem_cons] at hB
          have hBmem : B ∈ active_blocksG c1 := by
            rw [hacts]
            rcases hB with hB | hB
            · subst hB
              exact List.mem_cons_of_mem _ (List.mem_cons_self _ _)
            · exact List.mem_cons_of_mem _ (List.mem_cons_of_mem _ hB)
          exact P7 B hBmem


theorem headG_facts {rules : Rules} {instrs : List Instruction} {n : Nat}
    {c : CounterG} {top : ControlBlockG} {r1 : List ControlBlockG}
    (hc1 : c.stack = top :: r1) (HC : CInv rules instrs n c) :
    top.active_metered_block.start_pos ≤ n ∧
    (∀ y ∈ stack_startsG c, y ≤ top.active_metered_block.start_pos) ∧
    top.active_metered_block.start_pos ∉ fin_startsG c := by
  obtain ⟨H1, H2, H3, H4, H5, H6, H7, H8⟩ := HC
  have hmem : top.active_metered_block.start_pos ∈ stack_startsG c := by
    simp [stack_startsG, hc1]
  refine ⟨H4 _ hmem, ?_, H6 _ hmem⟩
  intro y hy
  have h5' := H5
  rw [stack_startsG] at h5' hy
  rw [hc1, List.map_cons] at h5' hy
  rcases List.mem_cons.mp hy with hy | hy
  · omega
  · exact (List.pairwise_cons.mp h5').1 y hy

theorem scan_stepG_inv {rules : Rules} {instrs : List Instruction} {cursor : Nat}
    {i : Instruction} {st st' : ScanStateG}
    (hi : instrs.get? cursor = some i)
    (h : scan_stepG rules cursor i st = .ok st')
    (H : SInv rules instrs cursor st) :
    SInv rules instrs (cursor + 1) st' := by
  obtain ⟨Hlc, HC⟩ := H
  unfold scan_stepG at h
  obtain ⟨cd, hsc, h⟩ := except_bind_ok h
  obtain ⟨cost, isDyn⟩ := cd
  have hi' : instrs[cursor]? = some i := by rw [← List.get?_eq_getElem?]; exact hi
  have hcon : contrib rules instrs cursor = cost := by
    simp [contrib, hi', ← Hlc, hsc]
  obtain ⟨counter', harm, hok⟩ := except_bind_ok h
  injection hok with hok
  subst hok
  refine ⟨?_, ?_⟩
  · show ScanStateG.last_const _ = last_const_at instrs (cursor + 1)
    cases i <;> simp [last_const_at, hi']
  · show CInv rules instrs (cursor + 1) counter'
    cases i with
    | Block bt =>
      simp only [scan_counterG] at harm
      obtain ⟨c1, hinc, hrest⟩ := except_bind_ok harm
      have hC1 := incrementG_CInv hinc hcon.symm HC
      cases hc1 : c1.stack with
      | nil => rw [hc1] at hrest; exact absurd hrest (by simp)
      | cons top r1 =>
        rw [hc1] at hrest
        simp only [] at hrest
        injection hrest with hrest
        subst hrest
        obtain ⟨hp, hge, hnf⟩ := headG_facts hc1 hC1
        exact CInv_mono (beginG_CInv hC1 hp hge hnf) (Nat.le_succ _)
    | If bt =>
      simp only [scan_counterG] at harm
      obtain ⟨c1, hinc, hrest⟩ := except_bind_ok harm
      have hC1 := CInv_mono (incrementG_CInv hinc hcon.symm HC) (Nat.le_succ _)
      injection hrest with hrest
      subst hrest
      obtain ⟨_, hC2, _, hC4, _, _, _, _⟩ := id hC1
      refine beginG_CInv hC1 (le_refl _) hC4 ?_
      intro hmem
      exact absurd (hC2 _ hmem) (by omega)
    | Loop bt =>
      simp only [scan_counterG] at harm
      obtain ⟨c1, hinc, hrest⟩ := except_bind_ok harm
      have hC1 := CInv_mono (incrementG_CInv hinc hcon.symm HC) (Nat.le_succ _)
      injection hrest with hrest
      subst hrest
      obtain ⟨_, hC2, _, hC4, _, _, _, _⟩ := id hC1
      refine beginG_CInv hC1 (le_refl _) hC4 ?_
      intro hmem
      exact absurd (hC2 _ hmem) (by omega)
    | End =>
      simp only [scan_counterG] at harm
      exact fcbG_CInv harm HC
    | Else =>
      simp only [scan_counterG] at harm
      exact fmbG_CInv harm HC
    | Br label =>
      simp only [scan_counterG] at harm
      obtain ⟨c1, hinc, hrest⟩ := except_bind_ok harm
      have hC1 := incrementG_CInv hinc hcon.symm HC
      cases hidx : c1.active_control_block_index with
      | none => rw [hidx] at hrest; exact absurd hrest (by simp)
      | some active =>
        rw [hidx] at hrest
        simp only [] at hrest
        split at hrest
        · exact branchG_CInv hrest hC1
        · exact absurd hrest (by simp)
    | BrIf label =>
      simp only [scan_counterG] at harm
      obtain ⟨c1, hinc, hrest⟩ := except_bind_ok harm
      have hC1 := incrementG_CInv hinc hcon.symm HC
      cases hidx : c1.active_control_block_index with
      | none => rw [hidx] at hrest; exact absurd hrest (by simp)
      | some active =>
        rw [hidx] at hrest
        simp only [] at hrest
        split at hrest
        · exact branchG_CInv hrest hC1
        · exact absurd hrest (by simp)
    | BrTable table dflt =>
      simp only [scan_counterG] at harm
      obtain ⟨c1, hinc, hrest⟩ := except_bind_ok harm
      have hC1 := incrementG_CInv hinc hcon.symm HC
      cases hidx : c1.active_control_block_index with
      | none => rw [hidx] at hrest; exact absurd hrest (by simp)
      | some active =>
        rw [hidx] at hrest
        simp only [] at hrest
        obtain ⟨targets, hmap, hbr⟩ := except_bind_ok hrest
        exact branchG_CInv hbr hC1
    | Return =>
      simp only [scan_counterG] at harm
      obtain ⟨c1, hinc, hrest⟩ := except_bind_ok harm
      exact branchG_CInv hrest (incrementG_CInv hinc hcon.symm HC)
    | Unreachable =>
      simp only [scan_counterG] at harm
      exact CInv_mono (incrementG_CInv harm hcon.symm HC) (Nat.le_succ _)
    | Call f =>
      simp only [scan_counterG] at harm
      exact CInv_mono (incrementG_CInv harm hcon.symm HC) (Nat.le_succ _)
    | Drop =>
      simp only [scan_counterG] at harm
      exact CInv_mono (incrementG_CInv harm hcon.symm HC) (Nat.le_succ _)
    | GetLocal k =>
      simp only [scan_counterG] at harm
      exact CInv_mono (incrementG_CInv harm hcon.symm HC) (Nat.le_succ _)
    | SetLocal k =>
      simp only [scan_counterG] at harm
      exact CInv_mono (incrementG_CInv harm hcon.symm HC) (Nat.le_succ _)
    | GetGlobal k =>
      simp only [scan_counterG] at harm
      exact CInv_mono (incrementG_CInv harm hcon.symm HC) (Nat.le_succ _)
    | SetGlobal k =>
      simp only [scan_counterG] at harm
      exact CInv_mono (incrementG_CInv harm hcon.symm HC) (Nat.le_succ _)
    | I32Const v =>
      simp only [scan_counterG] at harm
      exact CInv_mono (incrementG_CInv harm hcon.symm HC) (Nat.le_succ _)
    | I64Const v =>
      simp only [scan_counterG] at harm
      exact CInv_mono (incrementG_CInv harm hcon.symm HC) (Nat.le_succ _)
    | GrowMemory k =>
      simp only [scan_counterG] at harm
      exact CInv_mono (incrementG_CInv harm hcon.symm HC) (Nat.le_succ _)
    | I32Add =>
      simp only [scan_counterG] at harm
      exact CInv_mono (incrementG_CInv harm hcon.symm HC) (Nat.le_succ _)
    | I32Sub =>
      simp only [scan_counterG] at harm
      exact CInv_mono (incrementG_CInv harm hcon.symm HC) (Nat.le_succ _)
    | I32GtU =>
      simp only [scan_counterG] at harm
      exact CInv_mono (incrementG_CInv harm hcon.symm HC) (Nat.le_succ _)
    | I64Sub =>
      simp only [scan_counterG] at harm
      exact CInv_mono (incrementG_CInv harm hcon.symm HC) (Nat.le_succ _)
    | I64Mul =>
      simp only [scan_counterG] at harm
      exact CInv_mono (incrementG_CInv harm hcon.symm HC) (Nat.le_succ _)
    | I64LtS =>
      simp only [scan_counterG] at harm
      exact CInv_mono (incrementG_CInv harm hcon.symm HC) (Nat.le_succ _)
    | I64ExtendUI32 =>
      simp only [scan_counterG] at harm
      exact CInv_mono (incrementG_CInv harm hcon.symm HC) (Nat.le_succ _)
    | Other code =>
      simp only [scan_counterG] at harm
      exact CInv_mono (incrementG_CInv harm hcon.symm HC) (Nat.le_succ _)

theorem scan_goG_inv {rules : Rules} {instrs : List Instruction} :
    ∀ (rest : List Instruction) (cursor : Nat) (st st' : ScanStateG),
    instrs.drop cursor = rest →
    scan_goG rules cursor rest st = .ok st' →
    SInv rules instrs cursor st →
    SInv rules instrs (cursor + rest.length) st' := by
  intro rest
  induction rest with
  | nil =>
    intro cursor st st' _ h H
    simp only [scan_goG] at h
    injection h with h
    subst h
    simpa using H
  | cons i r ih =>
    intro cursor st st' hdrop h H
    simp only [scan_goG] at h
    obtain ⟨st1, hstep, hrest⟩ := except_bind_ok h
    have hi : instrs.get? cursor = some i := by
      have hh := List.head?_drop instrs cursor
      rw [hdrop] at hh
      simp only [List.head?_cons] at hh
      rw [List.get?_eq_getElem?]
      exact hh.symm
    have hdrop' : instrs.drop (cursor + 1) = r := by
      rw [← List.tail_drop, hdrop]
      rfl
    have H1 := scan_stepG_inv hi hstep H
    have H2 := ih (cursor + 1) st1 st' hdrop' hrest H1
    have hlen : cursor + 1 + r.length = cursor + (i :: r).length := by
      simp [List.length_cons]
      omega
    rw [hlen] at H2
    exact H2


theorem determineG_ok_inv {rules : Rules} {instrs : List Instruction}
    {gblocks : List MeteredBlockG} {dyn : List Instruction}
    (h : determine_metered_blocksG rules instrs = .ok (gblocks, dyn)) :
    (∀ B ∈ gblocks, 0 < B.cost ∧ B.start_pos < instrs.length ∧ cost_ok rules instrs B) ∧
    (gblocks.map MeteredBlockG.start_pos).Nodup ∧
    gblocks.Pairwise (fun a b => a.start_pos ≤ b.start_pos) := by
  unfold determine_metered_blocksG at h
  obtain ⟨st, hgo, hres⟩ := except_bind_ok h
  injection hres with hres
  injection hres with e1 e2
  have Hinit : SInv rules instrs 0
      { counter := CounterG.new.begin_control_block 0 false, last_const := none, dyn := [] } := by
    refine ⟨rfl, ?_, ?_, ?_, ?_, ?_, ?_, ?_, ?_⟩ <;>
      simp [CounterG.new, CounterG.begin_control_block, stack_startsG, fin_startsG,
        active_blocksG, cost_ok, block_sum, u64Mod]
  have Hfin := scan_goG_inv instrs 0 _ st rfl hgo Hinit
  obtain ⟨_, F1, F2, F3, _, _, _, F7, _⟩ := Hfin
  have hperm : List.Perm (sort_blocksG st.counter.finalized_blocks)
      st.counter.finalized_blocks :=
    List.perm_insertionSort _ _
  subst e1
  refine ⟨?_, ?_, ?_⟩
  · intro B hB
    have hBm : B ∈ st.counter.finalized_blocks := hperm.mem_iff.mp hB
    refine ⟨F1 B hBm, ?_, F7 B hBm⟩
    have := F2 B.start_pos (List.mem_map_of_mem _ hBm)
    simpa using this
  · have hpm : List.Perm
        ((sort_blocksG st.counter.finalized_blocks).map MeteredBlockG.start_pos)
        (fin_startsG st.counter) := hperm.map _
    exact hpm.nodup_iff.mpr F3
  · unfold sort_blocksG
    exact List.sorted_insertionSort (fun a b : MeteredBlockG => a.start_pos ≤ b.start_pos)
      st.counter.finalized_blocks

theorem erase_increment (c : CounterG) (cursor v : Nat) :
    (c.increment cursor v).map CounterG.erase = c.erase.increment v := by
  rcases c with ⟨stack, fin⟩
  cases stack with
  | nil => rfl
  | cons top rest =>
    by_cases hc : top.active_metered_block.cost + v < u64Mod
    · simp [CounterG.increment, Counter.increment, CounterG.erase, ControlBlockG.erase,
        MeteredBlockG.erase, hc, Except.map]
    · simp [CounterG.increment, Counter.increment, CounterG.erase, ControlBlockG.erase,
        MeteredBlockG.erase, hc, Except.map]

theorem erase_begin (c : CounterG) (p : Nat) (lp : Bool) :
    (c.begin_control_block p lp).erase = c.erase.begin_control_block p lp := by
  simp [CounterG.begin_control_block, Counter.begin_control_block, CounterG.erase,
    ControlBlockG.erase, MeteredBlockG.erase]

theorem erase_fmb (c : CounterG) (cursor : Nat) :
    (c.finalize_metered_block cursor).map CounterG.erase =
      c.erase.finalize_metered_block cursor := by
  rcases c with ⟨stack, fin⟩
  cases stack with
  | nil => rfl
  | cons top rest =>
    cases rest with
    | nil =>
      by_cases hc : 0 < top.active_metered_block.cost
      · simp [CounterG.finalize_metered_block, Counter.finalize_metered_block, CounterG.erase,
          ControlBlockG.erase, MeteredBlockG.erase, hc, Except.map]
      · simp [CounterG.finalize_metered_block, Counter.finalize_metered_block, CounterG.erase,
          ControlBlockG.erase, MeteredBlockG.erase, hc, Except.map]
    | cons prev rest' =>
      by_cases hm : top.active_metered_block.start_pos = prev.active_metered_block.start_pos
      · simp [CounterG.finalize_metered_block, Counter.finalize_metered_block, CounterG.erase,
          ControlBlockG.erase, MeteredBlockG.erase, hm, Except.map]
      · by_cases hc : 0 < top.active_metered_block.cost
        · simp [CounterG.finalize_metered_block, Counter.finalize_metered_block, CounterG.erase,
            ControlBlockG.erase, MeteredBlockG.erase, hm, hc, Except.map]
        · simp [CounterG.finalize_metered_block, Counter.finalize_metered_block, CounterG.erase,
            ControlBlockG.erase, MeteredBlockG.erase, hm, hc, Except.map]

theorem erase_bind {x : Except GasErr CounterG} {y : Except GasErr Counter}
    {f : CounterG → Except GasErr CounterG} {g : Counter → Except GasErr Counter}
    (hx : x.map CounterG.erase = y)
    (hf : ∀ a, (f a).map CounterG.erase = g a.erase) :
    (x >>= f).map CounterG.erase = y >>= g := by
  cases x with
  | error e =>
    simp [Except.map] at hx
    subst hx
    rfl
  | ok a =>
    simp [Except.map] at hx
    subst hx
    simpa using hf a

theorem erase_fcb (c : CounterG) (cursor : Nat) :
    (c.finalize_control_block cursor).map CounterG.erase =
      c.erase.finalize_control_block cursor := by
  unfold CounterG.finalize_control_block Counter.finalize_control_block
  refine erase_bind (erase_fmb c cursor) ?_
  intro a
  rcases a with ⟨stack, fin⟩
  cases stack with
  | nil => rfl
  | cons closing rest =>
    cases rest with
    | nil => rfl
    | cons prev rest' =>
      simp only [CounterG.erase, ControlBlockG.erase, List.map_cons, List.length_cons,
        List.length_map]
      by_cases hb : closing.lowest_forward_br_target < rest'.length + 1
      · rw [if_pos hb, if_pos hb]
        have he := erase_fmb ({ stack := ({ lowest_forward_br_target := min prev.lowest_forward_br_target closing.lowest_forward_br_target, active_metered_block := prev.active_metered_block, is_loop := prev.is_loop } : ControlBlockG) :: rest', finalized_blocks := fin } : CounterG) cursor
        simpa [CounterG.erase, ControlBlockG.erase, List.map_cons] using he
      · rw [if_neg hb, if_neg hb]
        simp [Except.map, CounterG.erase, ControlBlockG.erase]

theorem erase_branch_update :
    ∀ (idx : List Nat) (s : List ControlBlockG),
    (CounterG.branch_update s idx).map (List.map ControlBlockG.erase) =
      Counter.branch_update (s.map ControlBlockG.erase) idx := by
  intro idx
  induction idx with
  | nil => intro s; cases s <;> rfl
  | cons index rest ih =>
    intro s
    match s with
    | [] => rfl
    | top :: below =>
      simp only [List.map_cons]
      rw [CounterG.branch_update, Counter.branch_update]
      simp only [List.length_cons, List.length_map]
      by_cases h : index < below.length + 1
      · rw [dif_pos h, dif_pos h]
        have hget : (ControlBlockG.erase top :: List.map ControlBlockG.erase below).get
            ⟨below.length + 1 - 1 - index, by simp; omega⟩ =
            ControlBlockG.erase ((top :: below).get
              ⟨below.length + 1 - 1 - index, by simp; omega⟩) := by
          simp only [List.get_eq_getElem]
          exact @List.getElem_map ControlBlockG ControlBlock ControlBlockG.erase
            (top :: below) (below.length + 1 - 1 - index) (by simp; omega)
        by_cases hl : ((top :: below).get
            ⟨below.length + 1 - 1 - index, by simp; omega⟩).is_loop
        · rw [if_pos hl, if_pos (by rw [hget]; simpa [ControlBlockG.erase] using hl)]
          have := ih (top :: below)
          simpa using this
        · rw [if_neg hl, if_neg (by rw [hget]; simpa [ControlBlockG.erase] using hl)]
          have := ih ({ top with lowest_forward_br_target := min top.lowest_forward_br_target index } :: below)
          simpa [ControlBlockG.erase] using this
      · rw [dif_neg h, dif_neg h]
        rfl

theorem erase_branch (c : CounterG) (cursor : Nat) (idx : List Nat) :
    (c.branch cursor idx).map CounterG.erase = c.erase.branch cursor idx := by
  unfold CounterG.branch Counter.branch
  refine erase_bind (erase_fmb c cursor) ?_
  intro a
  have hupd := erase_branch_update idx a.stack
  cases hu : CounterG.branch_update a.stack idx with
  | error e =>
    rw [hu] at hupd
    simp only [Except.map] at hupd
    simp [Except.map, hu, Bind.bind, Except.bind, CounterG.erase, ← hupd]
  | ok s' =>
    rw [hu] at hupd
    simp only [Except.map] at hupd
    simp [Except.map, hu, Bind.bind, Except.bind, CounterG.erase, ← hupd]


theorem erase_bind2 {α : Type} {x : Except GasErr α}
    {f : α → Except GasErr CounterG} {g : α → Except GasErr Counter}
    (hf : ∀ a, (f a).map CounterG.erase = g a) :
    (x >>= f).map CounterG.erase = x >>= g := by
  cases x with
  | error e => rfl
  | ok a => simpa using hf a

theorem erase_active_idx (a : CounterG) :
    a.erase.active_control_block_index = a.active_control_block_index := by
  cases ha : a.stack with
  | nil =>
    simp [CounterG.active_control_block_index, Counter.active_control_block_index,
      CounterG.erase, ha]
  | cons top rest =>
    simp [CounterG.active_control_block_index, Counter.active_control_block_index,
      CounterG.erase, ha]

theorem erase_scan_counter (cursor cost : Nat) (i : Instruction) (c0 : CounterG) :
    (scan_counterG cursor cost i c0).map CounterG.erase =
      scan_counter cursor cost i c0.erase := by
  cases i with
  | Block bt =>
    simp only [scan_counterG, scan_counter]
    refine erase_bind (erase_increment c0 cursor cost) ?_
    intro a
    cases ha : a.stack with
    | nil =>
      have : a.erase.stack = [] := by simp [CounterG.erase, ha]
      simp [ha, this, Except.map]
    | cons top r =>
      have : a.erase.stack = top.erase :: r.map ControlBlockG.erase := by
        simp [CounterG.erase, ha]
      simp [ha, this, Except.map, erase_begin, ControlBlockG.erase, MeteredBlockG.erase]
  | If bt =>
    simp only [scan_counterG, scan_counter]
    refine erase_bind (erase_increment c0 cursor cost) ?_
    intro a
    simp [Except.map, erase_begin]
  | Loop bt =>
    simp only [scan_counterG, scan_counter]
    refine erase_bind (erase_increment c0 cursor cost) ?_
    intro a
    simp [Except.map, erase_begin]
  | End => exact erase_fcb c0 cursor
  | Else => exact erase_fmb c0 cursor
  | Br label =>
    simp only [scan_counterG, scan_counter]
    refine erase_bind (erase_increment c0 cursor cost) ?_
    intro a
    rw [← erase_active_idx]
    cases hidx : a.erase.active_control_block_index with
    | none => rfl
    | some active =>
      by_cases hla : label ≤ active
      · simp only [hla, if_true]
        exact erase_branch a cursor [active - label]
      · simp [hla, Except.map]
  | BrIf label =>
    simp only [scan_counterG, scan_counter]
    refine erase_bind (erase_increment c0 cursor cost) ?_
    intro a
    rw [← erase_active_idx]
    cases hidx : a.erase.active_control_block_index with
    | none => rfl
    | some active =>
      by_cases hla : label ≤ active
      · simp only [hla, if_true]
        exact erase_branch a cursor [active - label]
      · simp [hla, Except.map]
  | BrTable table dflt =>
    simp only [scan_counterG, scan_counter]
    refine erase_bind (erase_increment c0 cursor cost) ?_
    intro a
    rw [← erase_active_idx]
    cases hidx : a.erase.active_control_block_index with
    | none => rfl
    | some active =>
      simp only []
      refine erase_bind2 ?_
      intro targets
      exact erase_branch a cursor targets
  | Return =>
    simp only [scan_counterG, scan_counter]
    refine erase_bind (erase_increment c0 cursor cost) ?_
    intro a
    exact erase_branch a cursor [0]
  | Unreachable => exact erase_increment c0 cursor cost
  | Call f => exact erase_increment c0 cursor cost
  | Drop => exact erase_increment c0 cursor cost
  | GetLocal k => exact erase_increment c0 cursor cost
  | SetLocal k => exact erase_increment c0 cursor cost
  | GetGlobal k => exact erase_increment c0 cursor cost
  | SetGlobal k => exact erase_increment c0 cursor cost
  | I32Const v => exact erase_increment c0 cursor cost
  | I64Const v => exact erase_increment c0 cursor cost
  | GrowMemory k => exact erase_increment c0 cursor cost
  | I32Add => exact erase_increment c0 cursor cost
  | I32Sub => exact erase_increment c0 cursor cost
  | I32GtU => exact erase_increment c0 cursor cost
  | I64Sub => exact erase_increment c0 cursor cost
  | I64Mul => exact erase_increment c0 cursor cost
  | I64LtS => exact erase_increment c0 cursor cost
  | I64ExtendUI32 => exact erase_increment c0 cursor cost
  | Other code => exact erase_increment c0 cursor cost

theorem erase_scan_step (rules : Rules) (cursor : Nat) (i : Instruction) (st : ScanStateG) :
    (scan_stepG rules cursor i st).map ScanStateG.erase =
      scan_step rules cursor i st.erase := by
  unfold scan_stepG scan_step
  cases hsc : static_cost rules st.last_const i with
  | error e =>
    have hsc' : static_cost rules st.erase.last_const i = .error e := by
      simpa [ScanStateG.erase] using hsc
    simp [hsc, hsc', Except.map, Bind.bind, Except.bind]
  | ok cd =>
    obtain ⟨cost, isDyn⟩ := cd
    have hsc' : static_cost rules st.erase.last_const i = .ok (cost, isDyn) := by
      simpa [ScanStateG.erase] using hsc
    rw [hsc']
    have hcc := erase_scan_counter cursor cost i st.counter
    cases hcg : scan_counterG cursor cost i st.counter with
    | error e =>
      rw [hcg] at hcc
      simp only [Except.map] at hcc
      simp [Bind.bind, Except.bind, Except.map, hcg, ← hcc, ScanStateG.erase]
    | ok c' =>
      rw [hcg] at hcc
      simp only [Except.map] at hcc
      simp [Bind.bind, Except.bind, Except.map, hcg, ← hcc, ScanStateG.erase]

theorem erase_scan_go (rules : Rules) :
    ∀ (rest : List Instruction) (cursor : Nat) (st : ScanStateG),
    (scan_goG rules cursor rest st).map ScanStateG.erase =
      scan_go rules cursor rest st.erase := by
  intro rest
  induction rest with
  | nil => intro cursor st; rfl
  | cons i r ih =>
    intro cursor st
    simp only [scan_goG, scan_go]
    have hstep := erase_scan_step rules cursor i st
    cases hs : scan_stepG rules cursor i st with
    | error e =>
      rw [hs] at hstep
      simp only [Except.map] at hstep
      simp [Bind.bind, Except.bind, Except.map, ← hstep]
    | ok st1 =>
      rw [hs] at hstep
      simp only [Except.map] at hstep
      simp only [Bind.bind, Except.bind, ← hstep]
      exact ih (cursor + 1) st1

theorem erase_orderedInsert :
    ∀ (l : List MeteredBlockG) (a : MeteredBlockG),
    (List.orderedInsert (fun x y => x.start_pos ≤ y.start_pos) a l).map MeteredBlockG.erase =
      List.orderedInsert (fun x y => x.start_pos ≤ y.start_pos) a.erase
        (l.map MeteredBlockG.erase) := by
  intro l
  induction l with
  | nil => intro a; rfl
  | cons b bl ih =>
    intro a
    by_cases hab : a.start_pos ≤ b.start_pos
    · simp [List.orderedInsert, hab, MeteredBlockG.erase]
    · simp [List.orderedInsert, hab, MeteredBlockG.erase, ih a]

theorem erase_sort (l : List MeteredBlockG) :
    (sort_blocksG l).map MeteredBlockG.erase = sort_blocks (l.map MeteredBlockG.erase) := by
  unfold sort_blocksG sort_blocks
  induction l with
  | nil => rfl
  | cons b bl ih =>
    simp only [List.insertionSort, List.map_cons]
    rw [erase_orderedInsert, ih]

theorem erase_determine (rules : Rules) (instrs : List Instruction) :
    (determine_metered_blocksG rules instrs).map
        (fun p => (p.1.map MeteredBlockG.erase, p.2)) =
      determine_metered_blocks rules instrs := by
  unfold determine_metered_blocksG determine_metered_blocks
  have hgo := erase_scan_go rules instrs 0
    { counter := CounterG.new.begin_control_block 0 false, last_const := none, dyn := [] }
  have hinit : (ScanStateG.erase
      { counter := CounterG.new.begin_control_block 0 false, last_const := none, dyn := [] }) =
      { counter := Counter.new.begin_control_block 0 false, last_const := none, dyn := [] } := by
    simp [ScanStateG.erase, CounterG.erase, CounterG.new, Counter.new,
      CounterG.begin_control_block, Counter.begin_control_block, ControlBlockG.erase,
      MeteredBlockG.erase]
  rw [hinit] at hgo
  simp only []
  cases hg : scan_goG rules 0 instrs
      { counter := CounterG.new.begin_control_block 0 false, last_const := none, dyn := [] } with
  | error e =>
    rw [hg] at hgo
    simp only [Except.map] at hgo
    simp [Bind.bind, Except.bind, Except.map, ← hgo]
  | ok st =>
    rw [hg] at hgo
    simp only [Except.map] at hgo
    simp [Bind.bind, Except.bind, Except.map, ← hgo, ScanStateG.erase, CounterG.erase,
      erase_sort]


theorem determine_ok_facts {rules : Rules} {instrs : List Instruction}
    {blocks : List MeteredBlock} {dyn : List Instruction}
    (h : determine_metered_blocks rules instrs = .ok (blocks, dyn)) :
    (∀ b ∈ blocks, 0 < b.cost ∧ b.start_pos < instrs.length) ∧
    (blocks.map MeteredBlock.start_pos).Nodup ∧
    blocks.Pairwise (fun a b => a.start_pos ≤ b.start_pos) ∧
    ∃ gblocks, determine_metered_blocksG rules instrs = .ok (gblocks, dyn) ∧
      gblocks.map MeteredBlockG.erase = blocks := by
  have hproj := erase_determine rules instrs
  rw [h] at hproj
  cases hG : determine_metered_blocksG rules instrs with
  | error e =>
    rw [hG] at hproj
    exact absurd hproj (by simp [Except.map])
  | ok p =>
    rw [hG] at hproj
    simp only [Except.map] at hproj
    injection hproj with hproj
    injection hproj with e1 e2
    subst e2
    have hG' : determine_metered_blocksG rules instrs = .ok (p.1, p.2) := by rw [hG]
    have hfacts := determineG_ok_inv hG'
    obtain ⟨F1, F2, F3⟩ := hfacts
    have hmapstart : blocks.map MeteredBlock.start_pos =
        p.1.map MeteredBlockG.start_pos := by
      rw [← e1, List.map_map]
      rfl
    refine ⟨?_, ?_, ?_, p.1, rfl, e1⟩
    · intro b hb
      rw [← e1] at hb
      obtain ⟨B, hB, rfl⟩ := List.mem_map.mp hb
      obtain ⟨h1, h2, _⟩ := F1 B hB
      exact ⟨h1, h2⟩
    · rw [hmapstart]
      exact F2
    · rw [← e1, List.pairwise_map]
      exact F3.imp fun hab => hab

theorem insert_ok_inv {gas_func : Nat} {blocks : List MeteredBlock}
    {instrs out : List Instruction}
    (h : insert_metering_calls gas_func blocks instrs = .ok out) :
    insert_loop gas_func instrs 0 blocks = (out, []) := by
  unfold insert_metering_calls at h
  cases hl : insert_loop gas_func instrs 0 blocks with
  | mk o rem =>
    rw [hl] at h
    cases rem with
    | nil =>
      injection h with h
      subst h
      rfl
    | cons r rs => exact absurd h (by simp)

theorem determine_insert_ok {rules : Rules} {instrs : List Instruction}
    {blocks : List MeteredBlock} {dyn : List Instruction} (gas_func : Nat)
    (h : determine_metered_blocks rules instrs = .ok (blocks, dyn)) :
    ∃ out, insert_metering_calls gas_func blocks instrs = .ok out := by
  obtain ⟨F1, F2, F3, _⟩ := determine_ok_facts h
  have hlt : (blocks.map MeteredBlock.start_pos).Pairwise (· < ·) := by
    have hnd' : blocks.Pairwise (fun a b => a.start_pos ≠ b.start_pos) := by
      rw [List.Nodup, List.pairwise_map] at F2
      exact F2
    rw [List.pairwise_map]
    exact (F3.and hnd').imp fun hab => lt_of_le_of_ne hab.1 hab.2
  have hcomplete := insert_loop_complete gas_func instrs 0 blocks
    (by
      intro b hb
      obtain ⟨_, h2⟩ := F1 b hb
      omega)
    hlt
  refine ⟨(insert_loop gas_func instrs 0 blocks).1, ?_⟩
  unfold insert_metering_calls
  cases hl : insert_loop gas_func instrs 0 blocks with
  | mk o rem =>
    rw [hl] at hcomplete
    simp only [] at hcomplete
    subst hcomplete
    rfl

/-- C1.  For every function body accepted by the gas-injection scan: the
finalized metered blocks are sorted by start position; when the insertion
pass succeeds, the rewritten body is exactly the original sequence with the
pair `I64Const(cost); Call(gas_func)` emitted immediately before the
instruction at each block's start position (`spec_insert`); a finalized
block whose start position matches no original offset makes the pass fail;
and, via the ghost-instrumented scan (which erases to the source scan),
each block's cost is the u64-wrapped sum of the static charges of the
instructions attributed to it — the full `rules` cost of every non-dynamic
instruction and only the base of dynamic-cost instructions, as `contrib`
computes from `static_cost` — and equals that sum exactly whenever the sum
fits in a u64. -/
theorem gas_metered_blocks_spec (rules : Rules) (instrs : List Instruction)
    (gas_func : Nat) (blocks : List MeteredBlock) (dyn : List Instruction)
    (h : determine_metered_blocks rules instrs = .ok (blocks, dyn)) :
    blocks.Pairwise (fun a b => a.start_pos ≤ b.start_pos) ∧
    (∀ out, insert_metering_calls gas_func blocks instrs = .ok out →
      out = spec_insert gas_func blocks instrs) ∧
    ((∃ b ∈ blocks, instrs.length ≤ b.start_pos) →
      insert_metering_calls gas_func blocks instrs = .error .internal) ∧
    (∃ gblocks, determine_metered_blocksG rules instrs = .ok (gblocks, dyn) ∧
      gblocks.map MeteredBlockG.erase = blocks ∧
      ∀ B ∈ gblocks, B.cost = block_sum rules instrs B % u64Mod ∧
        (block_sum rules instrs B < u64Mod → B.cost = block_sum rules instrs B)) := by
  obtain ⟨F1, F2, F3, gblocks, hG, herase⟩ := determine_ok_facts h
  refine ⟨F3, ?_, ?_, gblocks, hG, herase, ?_⟩
  · intro out hout
    have hloop := insert_ok_inv hout
    have hsound := insert_loop_sound gas_func instrs 0 blocks (by rw [hloop])
    obtain ⟨_, _, hspec⟩ := hsound
    rw [hloop] at hspec
    simp only [] at hspec
    rw [hspec]
    unfold spec_insert
    rfl
  · intro hex
    unfold insert_metering_calls
    cases hl : insert_loop gas_func instrs 0 blocks with
    | mk o rem =>
      cases rem with
      | cons r rs => rfl
      | nil =>
        exfalso
        have hsound := insert_loop_sound gas_func instrs 0 blocks (by rw [hl])
        obtain ⟨hbd, _, _⟩ := hsound
        obtain ⟨b, hb, hge⟩ := hex
        have := hbd b hb
        omega
  · intro B hB
    obtain ⟨G1, _⟩ := determineG_ok_inv hG
    obtain ⟨_, _, hco⟩ := G1 B hB
    refine ⟨hco, ?_⟩
    intro hlt
    rw [hco]
    exact Nat.mod_eq_of_lt hlt

/-- Witness for gas_metered_blocks_spec on the ifelse example of the test
suite. -/
theorem gas_metered_blocks_spec_witness :
    determine_metered_blocks c1_rules c1_prog = .ok (c1_blocks, []) ∧
    (c1_blocks.Pairwise (fun a b => a.start_pos ≤ b.start_pos) ∧
     (∀ out, insert_metering_calls 1 c1_blocks c1_prog = .ok out →
       out = spec_insert 1 c1_blocks c1_prog) ∧
     ((∃ b ∈ c1_blocks, c1_prog.length ≤ b.start_pos) →
       insert_metering_calls 1 c1_blocks c1_prog = .error .internal) ∧
     (∃ gblocks, determine_metered_blocksG c1_rules c1_prog = .ok (gblocks, []) ∧
       gblocks.map MeteredBlockG.erase = c1_blocks ∧
       ∀ B ∈ gblocks, B.cost = block_sum c1_rules c1_prog B % u64Mod ∧
         (block_sum c1_rules c1_prog B < u64Mod →
           B.cost = block_sum c1_rules c1_prog B))) :=
  ⟨rfl, gas_metered_blocks_spec c1_rules c1_prog 1 c1_blocks [] rfl⟩

/-- C8.  The folded static cost of a Linear instruction preceded by
`i32.const` is computed with unchecked u64 arithmetic: under rules that
charge `memory.grow` a base of 2^64 - 1 plus 1 per page, the body
`i32.const 2; memory.grow; end` yields a metered block whose cost has
wrapped around to 1 — the scan returns Ok instead of failing with an
overflow, contradicting the claim that every addition into a block's cost
is checked. -/
theorem linear_fold_cost_wraps :
    determine_metered_blocks overflow_rules [.I32Const 2, .GrowMemory 0, .End] =
      .ok ([⟨0, 1⟩], []) := rfl




/-- Inversion of the source `Counter::increment`: on success the control
stack is nonempty, the checked add did not overflow, and only the top
block's cost changed. -/
theorem increment_eq {c : Counter} {v : Nat} {c' : Counter}
    (h : c.increment v = .ok c') :
    ∃ top rest, c.stack = top :: rest ∧
      top.active_metered_block.cost + v < u64Mod ∧
      c' = { stack :=
              { top with active_metered_block :=
                { top.active_metered_block with
                  cost := top.active_metered_block.cost + v } } :: rest,
             finalized_blocks := c.finalized_blocks } := by
  rcases c with ⟨stack, fin⟩
  cases stack with
  | nil => exact absurd h (by simp [Counter.increment])
  | cons top rest =>
    simp only [Counter.increment] at h
    split at h
    · refine ⟨top, rest, rfl, by assumption, ?_⟩
      cases h
      rfl
    · exact absurd h (by simp)

/-- In the default arm of the scan dispatch (no control flow, no branch),
the instruction only increments the active block's cost. -/
theorem scan_counter_plain {i : Instruction} (hp : is_plain i = true)
    (cursor cost : Nat) (c0 : Counter) :
    scan_counter cursor cost i c0 = c0.increment cost := by
  cases i <;> first | rfl | simp [is_plain] at hp

/-- Decomposition of one successful scan iteration: the static cost was
computed from the remembered constant, the counter moved by the dispatch,
the dynamic set grew exactly when the cost was flagged dynamic, and the
remembered constant became the scanned operand of `i32.const` (cleared
otherwise). -/
theorem scan_step_parts {rules : Rules} {cursor : Nat} {i : Instruction}
    {st st' : ScanState} (h : scan_step rules cursor i st = .ok st') :
    ∃ cost isDyn,
      static_cost rules st.last_const i = .ok (cost, isDyn) ∧
      scan_counter cursor cost i st.counter = .ok st'.counter ∧
      st'.dyn = (if isDyn then (if i ∈ st.dyn then st.dyn else st.dyn ++ [i])
                 else st.dyn) ∧
      st'.last_const = remembered_const i := by
  unfold scan_step at h
  obtain ⟨cd, hsc, h⟩ := except_bind_ok h
  obtain ⟨cost, isDyn⟩ := cd
  obtain ⟨counter', harm, hok⟩ := except_bind_ok h
  injection hok with hok
  subst hok
  exact ⟨cost, isDyn, hsc, harm, rfl, rfl⟩

/-- C3.  A `Linear(base, per)` instruction immediately preceded by
`i32.const v` is charged the folded static cost `base + v·per` (computed in
wrapping u64 arithmetic, hence exact whenever it fits) into the active
metered block and leaves the dynamic set unchanged; without a remembered
constant it is charged only `base` and joins the set of dynamic-cost
instructions; after the instruction the remembered constant holds the
operand of `i32.const` and is cleared for every other instruction. -/
theorem linear_cost_folding (rules : Rules) (i : Instruction) (base per : Nat)
    (hlin : rules i = some (.Linear base per)) :
    (∀ v : Int, static_cost rules (some v) i =
        .ok ((base + u64_of_i32 v * per) % u64Mod, false)) ∧
    (∀ v : Int, 0 ≤ v → v < 2 ^ 31 → base + v.toNat * per < u64Mod →
        static_cost rules (some v) i = .ok (base + v.toNat * per, false)) ∧
    static_cost rules none i = .ok (base, true) ∧
    (∀ cursor st st', scan_step rules cursor i st = .ok st' →
      ((∃ v, st.last_const = some v) → st'.dyn = st.dyn) ∧
      (st.last_const = none →
        st'.dyn = (if i ∈ st.dyn then st.dyn else st.dyn ++ [i]) ∧ i ∈ st'.dyn) ∧
      st'.last_const = remembered_const i) ∧
    (∀ cursor st st' top rest, is_plain i = true → st.last_const = none →
        scan_step rules cursor i st = .ok st' →
        st.counter.stack = top :: rest →
        st'.counter.stack =
          ({ top with active_metered_block :=
            { top.active_metered_block with
              cost := top.active_metered_block.cost + base } } : ControlBlock)
            :: rest ∧
        st'.counter.finalized_blocks = st.counter.finalized_blocks) ∧
    (∀ cursor st st' top rest (v : Int), is_plain i = true →
        st.last_const = some v →
        scan_step rules cursor i st = .ok st' →
        st.counter.stack = top :: rest →
        st'.counter.stack =
          ({ top with active_metered_block :=
            { top.active_metered_block with
              cost := top.active_metered_block.cost +
                (base + u64_of_i32 v * per) % u64Mod } } : ControlBlock)
            :: rest ∧
        st'.counter.finalized_blocks = st.counter.finalized_blocks) := by
  refine ⟨?_, ?_, ?_, ?_, ?_, ?_⟩
  · intro v
    simp [static_cost, hlin]
  · intro v h0 h31 hlt
    have hv : u64_of_i32 v = v.toNat := by
      unfold u64_of_i32
      rw [Int.emod_eq_of_lt h0 (by omega)]
    simp [static_cost, hlin, hv, Nat.mod_eq_of_lt hlt]
  · simp [static_cost, hlin]
  · intro cursor st st' h
    obtain ⟨cost, isDyn, hsc, harm, hdyn, hlc⟩ := scan_step_parts h
    refine ⟨?_, ?_, hlc⟩
    · rintro ⟨v, hv⟩
      rw [hv] at hsc
      simp only [static_cost, hlin] at hsc
      injection hsc with hsc
      have hd : isDyn = false := (congrArg Prod.snd hsc).symm
      rw [hdyn, hd]
      rfl
    · intro hnone
      rw [hnone] at hsc
      simp only [static_cost, hlin] at hsc
      injection hsc with hsc
      have hd : isDyn = true := (congrArg Prod.snd hsc).symm
      rw [hdyn, hd]
      refine ⟨rfl, ?_⟩
      by_cases hm : i ∈ st.dyn
      · simp [hm]
      · simp [hm]
  · intro cursor st st' top rest hp hnone h hstack
    obtain ⟨cost, isDyn, hsc, harm, hdyn, hlc⟩ := scan_step_parts h
    rw [hnone] at hsc
    simp only [static_cost, hlin] at hsc
    injection hsc with hsc
    have hc : base = cost := congrArg Prod.fst hsc
    rw [scan_counter_plain hp] at harm
    obtain ⟨top0, rest0, hst0, hov, hc'⟩ := increment_eq harm
    rw [hstack] at hst0
    injection hst0 with e1 e2
    subst e1
    subst e2
    rw [hc']
    rw [← hc]
    exact ⟨rfl, rfl⟩
  · intro cursor st st' top rest v hp hv h hstack
    obtain ⟨cost, isDyn, hsc, harm, hdyn, hlc⟩ := scan_step_parts h
    rw [hv] at hsc
    simp only [static_cost, hlin] at hsc
    injection hsc with hsc
    have hc : (base + u64_of_i32 v * per) % u64Mod = cost := congrArg Prod.fst hsc
    rw [scan_counter_plain hp] at harm
    obtain ⟨top0, rest0, hst0, hov, hc'⟩ := increment_eq harm
    rw [hstack] at hst0
    injection hst0 with e1 e2
    subst e1
    subst e2
    rw [hc']
    rw [← hc]
    exact ⟨rfl, rfl⟩

/-- Witness for linear_cost_folding: with the rule `i32.add ↦ Linear(1, 1)`,
a remembered `i32.const 2` folds to the static cost 3, and without one the
static cost is the base 1 flagged dynamic. -/
theorem linear_cost_folding_witness :
    linear_add_rules .I32Add = some (.Linear 1 1) ∧
    static_cost linear_add_rules (some 2) .I32Add = .ok (3, false) ∧
    static_cost linear_add_rules none .I32Add = .ok (1, true) :=
  ⟨rfl,
   (linear_cost_folding linear_add_rules .I32Add 1 1 rfl).2.1 2
     (by decide) (by decide) (by decide),
   (linear_cost_folding linear_add_rules .I32Add 1 1 rfl).2.2.1⟩



/-- Appending the gas import adds one global import. -/
theorem count_global_imports_gas (name : String) (l : List ImportEntry) :
    count_global_imports (l ++ [gas_import name]) = count_global_imports l + 1 := by
  simp [count_global_imports, gas_import, List.filter_append]

/-- Appending the gas import adds no function import. -/
theorem count_func_imports_gas (name : String) (l : List ImportEntry) :
    count_func_imports (l ++ [gas_import name]) = count_func_imports l := by
  simp [count_func_imports, gas_import, List.filter_append]

/-- The per-body loop never changes the number of functions. -/
theorem process_bodies_length {rules : Rules} {g gf : Nat}
    {pick : List Instruction → List Instruction} :
    ∀ {fs : List GasFunc} {st out},
      process_bodies rules g gf pick fs st = .ok out → out.1.length = fs.length := by
  intro fs
  induction fs with
  | nil =>
    intro st out h
    simp only [process_bodies] at h
    injection h with h
    rw [← h]
  | cons f fs ih =>
    intro st out h
    simp only [process_bodies] at h
    obtain ⟨bd, h1, h⟩ := except_bind_ok h
    obtain ⟨body2, dyn⟩ := bd
    obtain ⟨p2, h2, h⟩ := except_bind_ok h
    obtain ⟨fs', st''⟩ := p2
    injection h with h
    rw [← h]
    simp only [List.length_cons]
    rw [ih h2]

/-- Inversion of a successful run of `inject`: the per-body loop succeeded,
every section check passed, and the output module is the renumbered input
with the gas import appended, the rewritten bodies, the gas function, and
(when some instruction was flagged dynamic) the thunks. -/
theorem inject_ok_inv {rules : Rules} {name : String}
    {pick : List Instruction → List Instruction} {m m' : GasModule}
    (h : inject rules name pick m = .ok m') :
    ∃ funcs1 st tail,
      process_bodies rules (gas_global_of m)
          (count_func_imports m.imports + m.funcs.length) pick m.funcs
          ([], count_func_imports m.imports + m.funcs.length) = .ok (funcs1, st) ∧
      count_gas_imports name (m.imports ++ [gas_import name]) = 1 ∧
      m.elem_offsets.all offset_ok = true ∧
      m.data_offsets.all offset_ok = true ∧
      m'.imports = m.imports ++ [gas_import name] ∧
      m'.exports = m.exports.map (renumber_export (gas_global_of m)) ∧
      m'.elem_offsets = m.elem_offsets ∧
      m'.data_offsets = m.data_offsets ∧
      m'.funcs = funcs1 ++ gas_counter_func (gas_global_of m) :: tail ∧
      (st.1.isEmpty = true → tail = []) ∧
      (st.1.isEmpty = false →
        (sort_dyn st.1).mapM
          (dyn_thunk rules (count_func_imports m.imports + m.funcs.length)) =
          .ok tail) := by
  unfold inject at h
  simp only [] at h
  rw [count_global_imports_gas, count_func_imports_gas] at h
  rw [Nat.add_sub_cancel] at h
  obtain ⟨p, hpb, h⟩ := except_bind_ok h
  obtain ⟨funcs1, st⟩ := p
  have hcg : count_gas_imports name (m.imports ++ [gas_import name]) = 1 := by
    by_contra hc
    rw [if_neg hc] at h
    simp only [throw, throwThe, MonadExceptOf.throw, Bind.bind, Except.bind] at h
    exact absurd h (by simp)
  rw [if_pos hcg] at h
  simp only [pure_bind] at h
  have hel : m.elem_offsets.all offset_ok = true := by
    by_contra hc
    rw [if_neg hc] at h
    simp only [throw, throwThe, MonadExceptOf.throw, Bind.bind, Except.bind] at h
    exact absurd h (by simp)
  rw [if_pos hel] at h
  have hda : m.data_offsets.all offset_ok = true := by
    by_contra hc
    rw [if_neg hc] at h
    simp only [throw, throwThe, MonadExceptOf.throw, Bind.bind, Except.bind] at h
    exact absurd h (by simp)
  rw [if_pos hda] at h
  cases hie : st.1.isEmpty with
  | true =>
    rw [hie] at h
    simp only [if_true] at h
    injection h with h
    refine ⟨funcs1, st, [], hpb, hcg, hel, hda, ?_, ?_, ?_, ?_, ?_, ?_, ?_⟩
    · rw [← h]
      simp [add_gas_counter, gas_global_of]
    · rw [← h]
      simp [add_gas_counter, gas_global_of]
    · rw [← h]
      simp [add_gas_counter, gas_global_of]
    · rw [← h]
      simp [add_gas_counter, gas_global_of]
    · rw [← h]
      simp [add_gas_counter, gas_global_of]
    · intro _
      rfl
    · intro hfalse
      exact absurd hfalse (by simp [hie])
  | false =>
    rw [hie] at h
    simp only [if_false, Bool.false_eq_true] at h
    unfold add_dynamic_counters at h
    obtain ⟨thunks, hth, h⟩ := except_bind_ok h
    injection h with h
    refine ⟨funcs1, st, thunks, hpb, hcg, hel, hda, ?_, ?_, ?_, ?_, ?_, ?_, ?_⟩
    · rw [← h]
      simp [add_gas_counter, gas_global_of]
    · rw [← h]
      simp [add_gas_counter, gas_global_of]
    · rw [← h]
      simp [add_gas_counter, gas_global_of]
    · rw [← h]
      simp [add_gas_counter, gas_global_of]
    · rw [← h]
      simp [add_gas_counter, gas_global_of]
    · intro htrue
      exact absurd htrue (by simp [hie])
    · intro _
      exact hth

/-- C9.  After a successful gas injection, the synthesised gas-accounting
function sits right after the rewritten original functions; it takes one
`i64` parameter, returns nothing, and its body is exactly: load the gas
global, load the parameter, `i64.sub`, store to the gas global, reload the
gas global, `i64.const 0`, signed less-than, and an `if` holding a single
`unreachable`. -/
theorem gas_function_body {rules : Rules} {name : String}
    {pick : List Instruction → List Instruction} {m m' : GasModule}
    (h : inject rules name pick m = .ok m') :
    m'.funcs[m.funcs.length]? =
      some { params := [ValueType.i64], results := [],
             body := [.GetGlobal (gas_global_of m), .GetLocal 0, .I64Sub,
                      .SetGlobal (gas_global_of m), .GetGlobal (gas_global_of m),
                      .I64Const 0, .I64LtS, .If .empty, .Unreachable, .End,
                      .End] } := by
  obtain ⟨funcs1, st, tail, hpb, h1, h2, h3, h4, h5, h6, h7, hfuncs, h8, h9⟩ :=
    inject_ok_inv h
  have hlen : funcs1.length = m.funcs.length := process_bodies_length hpb
  rw [hfuncs, ← hlen]
  rw [List.getElem?_append_right (le_refl funcs1.length)]
  simp [gas_counter_func]

/-- Witness for gas_function_body: injecting fixed-cost rules into the
single-function module `add_module` synthesises the gas function at index
1. -/
theorem gas_function_body_witness :
    inject c1_rules "env" id add_module =
      .ok { imports := [{ module := "env", field := GAS_COUNTER_NAME,
                          ext := .globalImp .i64 true }],
            funcs := [{ params := [], results := [],
                        body := [.I64Const 1, .Call 1, .I32Add, .End] },
                      gas_counter_func 0],
            exports := [], elem_offsets := [], data_offsets := [] } ∧
    ({ imports := [{ module := "env", field := GAS_COUNTER_NAME,
                     ext := .globalImp .i64 true }],
       funcs := [{ params := [], results := [],
                   body := [.I64Const 1, .Call 1, .I32Add, .End] },
                 gas_counter_func 0],
       exports := [], elem_offsets := [], data_offsets := [] } : GasModule).funcs[add_module.funcs.length]? =
      some { params := [ValueType.i64], results := [],
             body := [.GetGlobal (gas_global_of add_module), .GetLocal 0, .I64Sub,
                      .SetGlobal (gas_global_of add_module),
                      .GetGlobal (gas_global_of add_module),
                      .I64Const 0, .I64LtS, .If .empty, .Unreachable, .End,
                      .End] } :=
  ⟨rfl, @gas_function_body c1_rules "env" id add_module _ rfl⟩

/-- Offsets in an enumeration from `k` are at least `k`. -/
theorem enumFrom_fst_ge {α : Type} :
    ∀ (l : List α) (k : Nat) (q : Nat × α), q ∈ List.enumFrom k l → k ≤ q.1 := by
  intro l
  induction l with
  | nil =>
    intro k q h
    simp [List.enumFrom] at h
  | cons a l ih =>
    intro k q h
    rw [List.enumFrom_cons] at h
    rcases List.mem_cons.mp h with h | h
    · rw [h]
    · exact Nat.le_of_succ_le (ih (k + 1) q h)

/-- A selected call records its own offset, and its instrumented sequence is
what `sl_expand` produces for the call. -/
theorem call_filter_some {ctx : SLContext} {off : Nat} {op : Instruction}
    {p : Nat × Nat × Nat} (h : call_filter ctx off op = some p) :
    p.1 = off ∧
    sl_expand ctx op =
      instrument_call p.2.1 p.2.2 ctx.stack_height_global_idx ctx.stack_limit := by
  cases op with
  | Call f =>
    simp only [call_filter] at h
    cases hsc : ctx.stack_cost f with
    | none =>
      rw [hsc] at h
      simp at h
    | some cost =>
      rw [hsc] at h
      simp only [] at h
      by_cases hc : 0 < cost
      · rw [if_pos hc] at h
        injection h with h
        rw [← h]
        refine ⟨rfl, ?_⟩
        simp [sl_expand, hsc, hc]
      · rw [if_neg hc] at h
        cases h
  | _ => cases h

/-- A rejected operator is copied unchanged. -/
theorem call_filter_none {ctx : SLContext} {off : Nat} {op : Instruction}
    (h : call_filter ctx off op = none) : sl_expand ctx op = [op] := by
  cases op with
  | Call f =>
    simp only [call_filter] at h
    cases hsc : ctx.stack_cost f with
    | none => simp [sl_expand, hsc]
    | some cost =>
      rw [hsc] at h
      simp only [] at h
      by_cases hc : 0 < cost
      · rw [if_pos hc] at h
        cases h
      · simp [sl_expand, hsc, hc]
  | _ => rfl

/-- The copy loop of `instrument_function`, fed the selected calls of the
remaining operators enumerated from the current offset, places every call
and produces exactly the per-operator expansion. -/
theorem instrument_loop_spec (ctx : SLContext) :
    ∀ (ops : List Instruction) (pos : Nat),
      instrument_loop ctx ops pos
        ((List.enumFrom pos ops).filterMap fun p => call_filter ctx p.1 p.2) =
        (ops.flatMap (sl_expand ctx), []) := by
  intro ops
  induction ops with
  | nil => intro pos; rfl
  | cons op rest ih =>
    intro pos
    rw [List.enumFrom_cons, List.filterMap_cons]
    cases hcf : call_filter ctx pos op with
    | some c =>
      obtain ⟨hc1, hexp⟩ := call_filter_some hcf
      simp only [instrument_loop]
      rw [if_pos hc1]
      rw [ih (pos + 1)]
      rw [List.flatMap_cons, hexp]
    | none =>
      cases htail : (List.enumFrom (pos + 1) rest).filterMap
          (fun p => call_filter ctx p.1 p.2) with
      | nil =>
        simp only [instrument_loop]
        have hloop := ih (pos + 1)
        rw [htail] at hloop
        rw [hloop]
        rw [List.flatMap_cons, call_filter_none hcf]
        rfl
      | cons c cs =>
        have hge : pos + 1 ≤ c.1 := by
          have hmem : c ∈ (List.enumFrom (pos + 1) rest).filterMap
              (fun p => call_filter ctx p.1 p.2) := by
            rw [htail]
            exact List.mem_cons_self c cs
          obtain ⟨q, hq, hcfq⟩ := List.mem_filterMap.mp hmem
          have := enumFrom_fst_ge rest (pos + 1) q hq
          rw [(call_filter_some hcfq).1]
          exact this
        simp only [instrument_loop]
        rw [if_neg (by omega)]
        have hloop := ih (pos + 1)
        rw [htail] at hloop
        rw [hloop]
        rw [List.flatMap_cons, call_filter_none hcf]
        rfl

/-- C6.  `instrument_function` succeeds on every body and rewrites it
operator by operator: a direct `call f` whose callee has a known positive
stack cost `c` becomes exactly the fifteen-instruction sequence
`global.get H; i32.const c; i32.add; global.set H; global.get H;
i32.const L; i32.gt_u; if; unreachable; end; call f; global.get H;
i32.const c; i32.sub; global.set H`, and a call whose callee has stack cost
0 or no recorded cost — and every non-call operator — is copied unchanged. -/
theorem stack_calls_instrumented (ctx : SLContext) (ops : List Instruction) :
    instrument_function ctx ops = .ok (ops.flatMap (sl_expand ctx)) ∧
    (∀ f c, ctx.stack_cost f = some c → 0 < c →
      sl_expand ctx (.Call f) =
        [.GetGlobal ctx.stack_height_global_idx, .I32Const (i32_of_u32 c), .I32Add,
         .SetGlobal ctx.stack_height_global_idx, .GetGlobal ctx.stack_height_global_idx,
         .I32Const (i32_of_u32 ctx.stack_limit), .I32GtU, .If .empty, .Unreachable,
         .End, .Call f, .GetGlobal ctx.stack_height_global_idx,
         .I32Const (i32_of_u32 c), .I32Sub, .SetGlobal ctx.stack_height_global_idx]) ∧
    (∀ f, ctx.stack_cost f = some 0 → sl_expand ctx (.Call f) = [.Call f]) ∧
    (∀ f, ctx.stack_cost f = none → sl_expand ctx (.Call f) = [.Call f]) ∧
    (∀ op, (∀ f, op ≠ .Call f) → sl_expand ctx op = [op]) := by
  refine ⟨?_, ?_, ?_, ?_, ?_⟩
  · unfold instrument_function
    have hspec := instrument_loop_spec ctx ops 0
    unfold calls_of
    rw [List.enum_eq_enumFrom] at *
    rw [hspec]
  · intro f c hsc hc
    simp [sl_expand, hsc, hc, instrument_call]
  · intro f hsc
    simp [sl_expand, hsc]
  · intro f hsc
    simp [sl_expand, hsc]
  · intro op hne
    cases op with
    | Call f => exact absurd rfl (hne f)
    | _ => rfl

/-- Witness for stack_calls_instrumented on a two-call body: the callee
with stack cost 3 is wrapped, the callee with stack cost 0 is not. -/
theorem stack_calls_instrumented_witness :
    instrument_function ⟨9, [0, 3], 100⟩ [.Call 1, .Call 0, .End] =
      .ok [.GetGlobal 9, .I32Const 3, .I32Add, .SetGlobal 9, .GetGlobal 9,
           .I32Const 100, .I32GtU, .If .empty, .Unreachable, .End, .Call 1,
           .GetGlobal 9, .I32Const 3, .I32Sub, .SetGlobal 9, .Call 0, .End] ∧
    SLContext.stack_cost ⟨9, [0, 3], 100⟩ 1 = some 3 ∧
    SLContext.stack_cost ⟨9, [0, 3], 100⟩ 0 = some 0 ∧
    sl_expand ⟨9, [0, 3], 100⟩ (.Call 0) = [.Call 0] :=
  ⟨(stack_calls_instrumented ⟨9, [0, 3], 100⟩ [.Call 1, .Call 0, .End]).1, rfl, rfl,
   (stack_calls_instrumented ⟨9, [0, 3], 100⟩ [.Call 1, .Call 0, .End]).2.2.1 0 rfl⟩

/-- C5.  Divergence between the claim and the code: `compute_stack_cost`
adds `max_stack_height` to wasmparser's `LocalsReader::get_count()`, which
is the number of `(count, type)` entries of the locals declaration — not the
function's parameters plus its declared local variables, as both the claim
and the code's own doc comment state.  A function with two i32 parameters
and three i64 locals declared in a single group has `get_count() = 1`, so
with a maximal stack height of 7 the code yields 0 for an imported function
and 8 for this one, where the claimed count would give 2 + 3 + 7 = 12; the
checked u32 addition does fail on overflow, as the error conjunct shows. -/
theorem stack_cost_locals_bug :
    compute_stack_cost 7 ⟨[.i32, .i32], [(3, .i64)], [.End]⟩ = .ok 8 ∧
    spec_locals_count ⟨[.i32, .i32], [(3, .i64)], [.End]⟩ + 7 = 12 ∧
    compute_stack_costs 1 [⟨[.i32, .i32], [(3, .i64)], [.End]⟩] (fun _ => 7) =
      .ok [0, 8] ∧
    compute_stack_cost (u32Mod - 1) ⟨[], [(1, .i32)], [.End]⟩ =
      .error "overflow in adding locals_count and max_stack_height" := by
  refine ⟨rfl, rfl, rfl, ?_⟩
  unfold compute_stack_cost
  rw [if_neg (by simp [locals_count, u32Mod])]

/-- C10.  The stack-height global's index is the number of globals declared
in the module's own global section (0 when that section is absent); the new
section is the pre-existing defined globals with a mutable i32 global
initialised to 0 appended; and the index is independent of the number of
imported globals, which the generator never consults. -/
theorem stack_height_global_index (m : SLModule) :
    (generate_stack_height_global m).1 = (m.global_section.getD []).length ∧
    (generate_stack_height_global m).2.global_section =
      some (m.global_section.getD [] ++ [⟨.i32, true, 0⟩]) ∧
    (generate_stack_height_global m).2.num_imported_globals =
      m.num_imported_globals ∧
    ∀ k, (generate_stack_height_global { m with num_imported_globals := k }).1 =
      (generate_stack_height_global m).1 := by
  rcases m with ⟨n, gs⟩
  cases gs with
  | none => exact ⟨rfl, rfl, rfl, fun k => rfl⟩
  | some l => exact ⟨rfl, rfl, rfl, fun k => rfl⟩

/-- An iteration order of a set with at most one element is the set itself. -/
theorem pick_eq_of_small {pick : List Instruction → List Instruction}
    (hp : ∀ l, List.Perm (pick l) l) {l : List Instruction} (h : l.length ≤ 1) :
    pick l = l := by
  cases l with
  | nil => exact List.Perm.eq_nil (hp [])
  | cons a l2 =>
    cases l2 with
    | nil => exact List.perm_singleton.mp (hp [a])
    | cons b l3 => simp at h

/-- A successful `inject_counter` run came from a successful scan with the
same dynamic set. -/
theorem inject_counter_dyn {rules : Rules} {gf : Nat} {instrs : List Instruction}
    {out : List Instruction × List Instruction}
    (h : inject_counter rules gf instrs = .ok out) :
    ∃ blocks, determine_metered_blocks rules instrs = .ok (blocks, out.2) := by
  unfold inject_counter at h
  obtain ⟨p, hd, h⟩ := except_bind_ok h
  obtain ⟨blocks, dyn⟩ := p
  obtain ⟨o, hi, h⟩ := except_bind_ok h
  injection h with h
  subst h
  exact ⟨blocks, hd⟩

/-- When every body flags at most one dynamic-cost instruction, the per-body
loop does not depend on the set iteration order. -/
theorem process_bodies_pick_indep {rules : Rules} {gg gf : Nat}
    {pick1 pick2 : List Instruction → List Instruction}
    (hp1 : ∀ l, List.Perm (pick1 l) l) (hp2 : ∀ l, List.Perm (pick2 l) l) :
    ∀ (fs : List GasFunc) (st : List (Instruction × Nat) × Nat),
      (∀ f ∈ fs, ∀ r,
        determine_metered_blocks rules (renumber_globals gg f.body) = .ok r →
        r.2.length ≤ 1) →
      process_bodies rules gg gf pick1 fs st =
        process_bodies rules gg gf pick2 fs st := by
  intro fs
  induction fs with
  | nil => intro st hsmall; rfl
  | cons f fs ih =>
    intro st hsmall
    simp only [process_bodies]
    cases hic : inject_counter rules gf (renumber_globals gg f.body) with
    | error e => simp [Bind.bind, Except.bind]
    | ok p =>
      obtain ⟨body2, dyn⟩ := p
      obtain ⟨blocks, hdet⟩ := inject_counter_dyn hic
      have hlen : dyn.length ≤ 1 :=
        hsmall f (List.mem_cons_self f fs) (blocks, dyn) hdet
      have hpk : pick1 dyn = pick2 dyn := by
        rw [pick_eq_of_small hp1 hlen, pick_eq_of_small hp2 hlen]
      simp only [Bind.bind, Except.bind]
      rw [hpk]
      rw [ih ((pick2 dyn).foldl dyn_entry st)
        (fun g hg r hr => hsmall g (List.mem_cons_of_mem f hg) r hr)]

/-- C7 (amended).  Each transformation is a function of its inputs together
with, for the gas injector, the iteration order of the per-body HashSet of
dynamic-cost instructions; whenever every body flags at most one
dynamic-cost instruction, that order is immaterial and any two runs produce
identical outputs.  (The counterexample shows the order does change the
output when a body flags two dynamic-cost instructions.) -/
theorem inject_order_independent_when_small (rules : Rules) (name : String)
    (m : GasModule) (pick1 pick2 : List Instruction → List Instruction)
    (hp1 : ∀ l, List.Perm (pick1 l) l) (hp2 : ∀ l, List.Perm (pick2 l) l)
    (hdyn : ∀ f ∈ m.funcs, ∀ r,
      determine_metered_blocks rules
        (renumber_globals (gas_global_of m) f.body) = .ok r →
      r.2.length ≤ 1) :
    inject rules name pick1 m = inject rules name pick2 m := by
  have hpb := @process_bodies_pick_indep rules (gas_global_of m)
    (count_func_imports m.imports + m.funcs.length) pick1 pick2 hp1 hp2 m.funcs
    ([], count_func_imports m.imports + m.funcs.length) hdyn
  unfold inject
  simp only []
  rw [count_global_imports_gas, count_func_imports_gas, Nat.add_sub_cancel]
  have hgg : count_global_imports m.imports = gas_global_of m := rfl
  rw [hgg, hpb]

/-- C7 counterexample.  Two runs of the gas injector on the same module and
rules that differ only in the HashSet iteration order — first-insertion
order versus its reverse, both orderings of the same two-element set —
assign the thunk indices to the two `memory.grow` instructions in opposite
ways and produce different modules, refuting byte-identical outputs across
runs. -/
theorem inject_depends_on_set_order :
    List.Perm (List.reverse [(.GrowMemory 0 : Instruction), .GrowMemory 1])
      [(.GrowMemory 0 : Instruction), .GrowMemory 1] ∧
    inject grow_rules "env" id two_grow_module ≠
      inject grow_rules "env" List.reverse two_grow_module := by
  refine ⟨List.reverse_perm _, ?_⟩
  intro heq
  have h2 := congrArg (fun x : Except GasErr GasModule =>
    match x with
    | .ok mm =>
      match mm.funcs with
      | f0 :: _ =>
        (match f0.body.get? 2 with
         | some (.Call k) => k
         | _ => 0)
      | [] => 0
    | .error _ => 0) heq
  exact absurd h2 (by decide)

/-- Witness for inject_order_independent_when_small: on a module whose only
body flags the single dynamic-cost instruction `memory.grow`, the identity
order and the reversed order give the same output. -/
theorem inject_order_independent_witness :
    inject grow_rules "env" id one_grow_module =
      inject grow_rules "env" List.reverse one_grow_module := by
  refine inject_order_independent_when_small grow_rules "env" one_grow_module
    id List.reverse (fun l => List.Perm.refl l) (fun l => l.reverse_perm) ?_
  intro f hf r hr
  have hf2 : f = (⟨[], [], [.GrowMemory 0, .End]⟩ : GasFunc) := by
    simpa [one_grow_module] using hf
  subst hf2
  have hd : determine_metered_blocks grow_rules
      (renumber_globals (gas_global_of one_grow_module)
        (GasFunc.body ⟨[], [], [.GrowMemory 0, .End]⟩)) =
      .ok ([⟨0, 1⟩], [.GrowMemory 0]) := rfl
  rw [hd] at hr
  injection hr with hr
  rw [← hr]
  decide

/-- A failing bind failed in its first or its second stage. -/
theorem except_bind_err {ε α β : Type} {x : Except ε α} {f : α → Except ε β}
    {e : ε} (h : (x >>= f) = .error e) :
    x = .error e ∨ ∃ a, x = .ok a ∧ f a = .error e := by
  cases x with
  | error e2 =>
    left
    simp only [Bind.bind, Except.bind] at h
    injection h with h
    rw [h]
  | ok a =>
    right
    exact ⟨a, rfl, h⟩

/-- `static_cost` fails only by finding a forbidden instruction. -/
theorem static_cost_err {rules : Rules} {lc : Option Int} {i : Instruction}
    {e : GasErr} (h : static_cost rules lc i = .error e) :
    e = .forbidden ∧ rules i = none := by
  unfold static_cost at h
  cases hr : rules i with
  | none =>
    rw [hr] at h
    injection h with h
    exact ⟨h.symm, rfl⟩
  | some c =>
    rw [hr] at h
    cases c with
    | Fixed c => cases h
    | Linear base per => cases lc <;> simp at h

/-- An instruction is flagged dynamic exactly by the constant-less `Linear`
arm of `static_cost`. -/
theorem static_cost_ok_dyn {rules : Rules} {lc : Option Int} {i : Instruction}
    {c : Nat} (h : static_cost rules lc i = .ok (c, true)) :
    ∃ per, rules i = some (.Linear c per) ∧ lc = none := by
  unfold static_cost at h
  cases hr : rules i with
  | none => rw [hr] at h; cases h
  | some cost =>
    rw [hr] at h
    cases cost with
    | Fixed k =>
      injection h with h
      exact absurd (congrArg Prod.snd h) (by simp)
    | Linear base per =>
      cases lc with
      | some v =>
        simp only [] at h
        injection h with h
        exact absurd (congrArg Prod.snd h) (by simp)
      | none =>
        simp only [] at h
        injection h with h
        have hc : base = c := congrArg Prod.fst h
        exact ⟨per, by rw [hc], rfl⟩

/-- `Counter::increment` fails only with underflow or overflow. -/
theorem increment_err {c : Counter} {v : Nat} {e : GasErr}
    (h : c.increment v = .error e) : e = .underflow ∨ e = .overflow := by
  rcases c with ⟨stack, fin⟩
  cases stack with
  | nil =>
    simp only [Counter.increment] at h
    injection h with h
    exact Or.inl h.symm
  | cons top rest =>
    simp only [Counter.increment] at h
    split at h
    · cases h
    · injection h with h
      exact Or.inr h.symm

/-- `finalize_metered_block` fails only with underflow. -/
theorem fmb_err {c : Counter} {cursor : Nat} {e : GasErr}
    (h : c.finalize_metered_block cursor = .error e) : e = .underflow := by
  rcases c with ⟨stack, fin⟩
  cases stack with
  | nil =>
    simp only [Counter.finalize_metered_block] at h
    injection h with h
    exact h.symm
  | cons top rest =>
    cases rest with
    | nil =>
      simp only [Counter.finalize_metered_block] at h
      split at h <;> cases h
    | cons prev rest2 =>
      simp only [Counter.finalize_metered_block] at h
      split at h
      · cases h
      · split at h <;> cases h

/-- `finalize_control_block` fails only with underflow. -/
theorem fcb_err {c : Counter} {cursor : Nat} {e : GasErr}
    (h : c.finalize_control_block cursor = .error e) : e = .underflow := by
  unfold Counter.finalize_control_block at h
  rcases except_bind_err h with h | ⟨c1, h1, h⟩
  · exact fmb_err h
  · cases hs : c1.stack with
    | nil =>
      rw [hs] at h
      injection h with h
      exact h.symm
    | cons closing rest =>
      rw [hs] at h
      cases rest with
      | nil => cases h
      | cons prev rest2 =>
        simp only [] at h
        split at h
        · exact fmb_err h
        · cases h

/-- The branch-target loop fails only with underflow. -/
theorem branch_update_err :
    ∀ (idx : List Nat) (stack : List ControlBlock) (e : GasErr),
      Counter.branch_update stack idx = .error e → e = .underflow := by
  intro idx
  induction idx with
  | nil =>
    intro stack e h
    cases stack <;> cases h
  | cons index rest ih =>
    intro stack e h
    cases stack with
    | nil =>
      injection h with h
      exact h.symm
    | cons top below =>
      simp only [Counter.branch_update] at h
      split at h
      · split at h
        · exact ih _ e h
        · exact ih _ e h
      · injection h with h
        exact h.symm

/-- `branch` fails only with underflow. -/
theorem branch_err {c : Counter} {cursor : Nat} {idx : List Nat} {e : GasErr}
    (h : c.branch cursor idx = .error e) : e = .underflow := by
  unfold Counter.branch at h
  rcases except_bind_err h with h | ⟨c1, h1, h⟩
  · exact fmb_err h
  · rcases except_bind_err h with h | ⟨s, h2, h⟩
    · exact branch_update_err idx c1.stack e h
    · cases h

/-- The label check of `br_table` fails only with underflow. -/
theorem brtable_mapM_err {active : Nat} {labels : List Nat} {e : GasErr}
    (h : (labels.mapM fun label =>
        if label ≤ active then Except.ok (active - label)
        else (Except.error .underflow : Except GasErr Nat)) = .error e) :
    e = .underflow := by
  induction labels with
  | nil => cases h
  | cons l ls ih =>
    rw [List.mapM_cons] at h
    rcases except_bind_err h with h2 | ⟨a, h2, h⟩
    · split at h2
      · cases h2
      · injection h2 with h2
        exact h2.symm
    · rcases except_bind_err h with h3 | ⟨b, h3, h⟩
      · exact ih h3
      · cases h

/-- The counter dispatch fails only with underflow or overflow. -/
theorem scan_counter_err {cursor cost : Nat} {i : Instruction} {c0 : Counter}
    {e : GasErr} (h : scan_counter cursor cost i c0 = .error e) :
    e = .underflow ∨ e = .overflow := by
  cases i
  case End => exact Or.inl (fcb_err h)
  case Else => exact Or.inl (fmb_err h)
  case Block bt =>
    simp only [scan_counter] at h
    rcases except_bind_err h with h | ⟨c, h1, h⟩
    · exact increment_err h
    · cases hs : c.stack with
      | nil => rw [hs] at h; injection h with h; exact Or.inl h.symm
      | cons top rest => rw [hs] at h; cases h
  case If bt =>
    simp only [scan_counter] at h
    rcases except_bind_err h with h | ⟨c, h1, h⟩
    · exact increment_err h
    · cases h
  case Loop bt =>
    simp only [scan_counter] at h
    rcases except_bind_err h with h | ⟨c, h1, h⟩
    · exact increment_err h
    · cases h
  case Br label =>
    simp only [scan_counter] at h
    rcases except_bind_err h with h | ⟨c, h1, h⟩
    · exact increment_err h
    · cases hai : c.active_control_block_index with
      | none => rw [hai] at h; injection h with h; exact Or.inl h.symm
      | some active =>
        rw [hai] at h
        simp only [] at h
        split at h
        · exact Or.inl (branch_err h)
        · injection h with h; exact Or.inl h.symm
  case BrIf label =>
    simp only [scan_counter] at h
    rcases except_bind_err h with h | ⟨c, h1, h⟩
    · exact increment_err h
    · cases hai : c.active_control_block_index with
      | none => rw [hai] at h; injection h with h; exact Or.inl h.symm
      | some active =>
        rw [hai] at h
        simp only [] at h
        split at h
        · exact Or.inl (branch_err h)
        · injection h with h; exact Or.inl h.symm
  case BrTable table dflt =>
    simp only [scan_counter] at h
    rcases except_bind_err h with h | ⟨c, h1, h⟩
    · exact increment_err h
    · cases hai : c.active_control_block_index with
      | none => rw [hai] at h; injection h with h; exact Or.inl h.symm
      | some active =>
        rw [hai] at h
        simp only [] at h
        rcases except_bind_err h with h | ⟨ts, h2, h⟩
        · exact Or.inl (brtable_mapM_err h)
        · exact Or.inl (branch_err h)
  case Return =>
    simp only [scan_counter] at h
    rcases except_bind_err h with h | ⟨c, h1, h⟩
    · exact increment_err h
    · exact Or.inl (branch_err h)
  all_goals exact increment_err h

/-- One scan iteration fails only with a forbidden instruction, underflow,
or overflow; a forbidden failure names an instruction the rules reject. -/
theorem scan_step_err {rules : Rules} {cursor : Nat} {i : Instruction}
    {st : ScanState} {e : GasErr} (h : scan_step rules cursor i st = .error e) :
    (e = .forbidden ∧ rules i = none) ∨ e = .underflow ∨ e = .overflow := by
  unfold scan_step at h
  rcases except_bind_err h with h | ⟨cd, h1, h⟩
  · exact Or.inl (static_cost_err h)
  · obtain ⟨cost, isDyn⟩ := cd
    rcases except_bind_err h with h | ⟨c, h2, h⟩
    · exact Or.inr (scan_counter_err h)
    · cases h

/-- The scan loop fails only with a forbidden instruction of the remaining
sequence, underflow, or overflow. -/
theorem scan_go_err_tags {rules : Rules} :
    ∀ (instrs : List Instruction) (cursor : Nat) (st : ScanState) (e : GasErr),
      scan_go rules cursor instrs st = .error e →
      (e = .forbidden ∧ ∃ i ∈ instrs, rules i = none) ∨
        e = .underflow ∨ e = .overflow := by
  intro instrs
  induction instrs with
  | nil =>
    intro cursor st e h
    cases h
  | cons i rest ih =>
    intro cursor st e h
    simp only [scan_go] at h
    rcases except_bind_err h with h | ⟨st1, h1, h⟩
    · rcases scan_step_err h with ⟨he, hi⟩ | h2
      · exact Or.inl ⟨he, i, List.mem_cons_self i rest, hi⟩
      · exact Or.inr h2
    · rcases ih (cursor + 1) st1 e h with ⟨he, j, hj, hrj⟩ | h2
      · exact Or.inl ⟨he, j, List.mem_cons_of_mem i hj, hrj⟩
      · exact Or.inr h2

/-- A successful scan rejected no instruction. -/
theorem scan_go_ok_rules {rules : Rules} :
    ∀ (instrs : List Instruction) (cursor : Nat) (st st2 : ScanState),
      scan_go rules cursor instrs st = .ok st2 →
      ∀ i ∈ instrs, rules i ≠ none := by
  intro instrs
  induction instrs with
  | nil =>
    intro cursor st st2 h i hi
    cases hi
  | cons i rest ih =>
    intro cursor st st2 h j hj
    simp only [scan_go] at h
    obtain ⟨st1, h1, h⟩ := except_bind_ok h
    rcases List.mem_cons.mp hj with hj | hj
    · subst hj
      obtain ⟨cost, isDyn, hsc, _, _, _⟩ := scan_step_parts h1
      intro hnone
      unfold static_cost at hsc
      rw [hnone] at hsc
      cases hsc
    · exact ih (cursor + 1) st1 st2 h j hj

/-- Every instruction a successful scan flags dynamic carries a `Linear`
cost. -/
theorem scan_go_dyn_linear {rules : Rules} :
    ∀ (instrs : List Instruction) (cursor : Nat) (st st2 : ScanState),
      scan_go rules cursor instrs st = .ok st2 →
      (∀ i ∈ st.dyn, ∃ b per, rules i = some (.Linear b per)) →
      ∀ i ∈ st2.dyn, ∃ b per, rules i = some (.Linear b per) := by
  intro instrs
  induction instrs with
  | nil =>
    intro cursor st st2 h hbase
    cases h
    exact hbase
  | cons i rest ih =>
    intro cursor st st2 h hbase
    simp only [scan_go] at h
    obtain ⟨st1, h1, h⟩ := except_bind_ok h
    refine ih (cursor + 1) st1 st2 h ?_
    obtain ⟨cost, isDyn, hsc, _, hdyn, _⟩ := scan_step_parts h1
    intro j hj
    rw [hdyn] at hj
    cases isDyn with
    | false =>
      rw [if_neg (by simp)] at hj
      exact hbase j hj
    | true =>
      obtain ⟨per, hlin, _⟩ := static_cost_ok_dyn hsc
      rw [if_pos rfl] at hj
      by_cases hm : i ∈ st.dyn
      · rw [if_pos hm] at hj
        exact hbase j hj
      · rw [if_neg hm] at hj
        rcases List.mem_append.mp hj with hj | hj
        · exact hbase j hj
        · rw [List.mem_singleton] at hj
          subst hj
          exact ⟨cost, per, hlin⟩

/-- A failing `determine_metered_blocks` failed in the scan loop. -/
theorem determine_err_scan {rules : Rules} {instrs : List Instruction}
    {e : GasErr} (h : determine_metered_blocks rules instrs = .error e) :
    scan_go rules 0 instrs
      { counter := Counter.new.begin_control_block 0 false,
        last_const := none, dyn := [] } = .error e := by
  unfold determine_metered_blocks at h
  simp only [] at h
  rcases except_bind_err h with h | ⟨st, h1, h⟩
  · exact h
  · cases h

/-- `determine_metered_blocks` fails only with a forbidden instruction,
underflow, or overflow; a forbidden failure names a rejected instruction. -/
theorem determine_err_tags {rules : Rules} {instrs : List Instruction}
    {e : GasErr} (h : determine_metered_blocks rules instrs = .error e) :
    (e = .forbidden ∧ ∃ i ∈ instrs, rules i = none) ∨
      e = .underflow ∨ e = .overflow :=
  scan_go_err_tags instrs 0 _ e (determine_err_scan h)

/-- A successful `determine_metered_blocks` rejected no instruction. -/
theorem determine_ok_rules {rules : Rules} {instrs : List Instruction}
    {r : List MeteredBlock × List Instruction}
    (h : determine_metered_blocks rules instrs = .ok r) :
    ∀ i ∈ instrs, rules i ≠ none := by
  unfold determine_metered_blocks at h
  simp only [] at h
  obtain ⟨st, h1, h⟩ := except_bind_ok h
  exact scan_go_ok_rules instrs 0 _ st h1

/-- A body with a forbidden instruction makes the scan fail. -/
theorem determine_err_of_forbidden {rules : Rules} {instrs : List Instruction}
    (hf : ∃ i ∈ instrs, rules i = none) :
    ∃ e, determine_metered_blocks rules instrs = .error e := by
  cases hd : determine_metered_blocks rules instrs with
  | error e => exact ⟨e, rfl⟩
  | ok r =>
    obtain ⟨i, hi, hnone⟩ := hf
    exact absurd hnone (determine_ok_rules hd i hi)

/-- Every dynamic-cost instruction a successful scan returns carries a
`Linear` cost. -/
theorem determine_dyn_linear {rules : Rules} {instrs : List Instruction}
    {r : List MeteredBlock × List Instruction}
    (h : determine_metered_blocks rules instrs = .ok r) :
    ∀ i ∈ r.2, ∃ b per, rules i = some (.Linear b per) := by
  unfold determine_metered_blocks at h
  simp only [] at h
  obtain ⟨st, h1, h⟩ := except_bind_ok h
  injection h with h
  subst h
  exact scan_go_dyn_linear instrs 0 _ st h1 (fun i hi => absurd hi (by simp))

/-- Each element of a successful `mapM` run succeeded. -/
theorem mapM_ok_forall {ε α β : Type} {f : α → Except ε β} :
    ∀ {l : List α} {out : List β},
      l.mapM f = .ok out → ∀ a ∈ l, ∃ b, f a = .ok b := by
  intro l
  induction l with
  | nil =>
    intro out h a ha
    cases ha
  | cons x xs ih =>
    intro out h a ha
    rw [List.mapM_cons] at h
    obtain ⟨b, hb, h⟩ := except_bind_ok h
    obtain ⟨bs, hbs, h⟩ := except_bind_ok h
    rcases List.mem_cons.mp ha with ha | ha
    · subst ha
      exact ⟨b, hb⟩
    · exact ih hbs a ha

/-- `mapM` succeeds when every element does. -/
theorem mapM_ok_exists {ε α β : Type} {f : α → Except ε β} :
    ∀ {l : List α}, (∀ a ∈ l, ∃ b, f a = .ok b) →
      ∃ out, l.mapM f = .ok out := by
  intro l
  induction l with
  | nil => intro h; exact ⟨[], rfl⟩
  | cons x xs ih =>
    intro h
    obtain ⟨b, hb⟩ := h x (List.mem_cons_self x xs)
    obtain ⟨bs, hbs⟩ := ih (fun a ha => h a (List.mem_cons_of_mem x ha))
    refine ⟨b :: bs, ?_⟩
    rw [List.mapM_cons, hb]
    simp only [Bind.bind, Except.bind]
    rw [hbs]
    simp only [Bind.bind, Except.bind]
    rfl

/-- A failing `mapM` run has a failing element. -/
theorem mapM_err_exists {ε α β : Type} {f : α → Except ε β} {l : List α}
    {e : ε} (h : l.mapM f = .error e) : ∃ a ∈ l, ∃ e2, f a = .error e2 := by
  by_contra hc
  push_neg at hc
  have hall : ∀ a ∈ l, ∃ b, f a = .ok b := by
    intro a ha
    cases hfa : f a with
    | error e2 => exact absurd hfa (hc a ha e2)
    | ok b => exact ⟨b, rfl⟩
  obtain ⟨out, hout⟩ := mapM_ok_exists hall
  rw [hout] at h
  cases h

/-- A thunk is only ever built for `memory.grow`. -/
theorem dyn_thunk_ok_grow {rules : Rules} {gf : Nat} {p : Instruction × Nat}
    {t : GasFunc} (h : dyn_thunk rules gf p = .ok t) : is_grow p.1 = true := by
  cases hp : p.1 with
  | GrowMemory k => rfl
  | _ =>
    unfold dyn_thunk at h
    simp only [] at h
    rw [hp] at h
    split at h <;> simp [instruction_signature, Bind.bind, Except.bind] at h

/-- A `memory.grow` key with a `Linear` rule always gets its thunk. -/
theorem dyn_thunk_grow_ok {rules : Rules} {gf : Nat} {p : Instruction × Nat}
    (hlin : ∃ b per, rules p.1 = some (.Linear b per))
    (hg : is_grow p.1 = true) : ∃ t, dyn_thunk rules gf p = .ok t := by
  obtain ⟨b, per, hr⟩ := hlin
  cases hp : p.1 with
  | GrowMemory k =>
    rw [hp] at hr
    refine ⟨⟨[.i32], [.i32],
      [.GetLocal 0, .GetLocal 0, .I64ExtendUI32, .I64Const (i64_of_u64 per),
       .I64Mul, .Call gf, .GrowMemory k, .End]⟩, ?_⟩
    unfold dyn_thunk
    rw [hp, hr]
    rfl
  | _ =>
    rw [hp] at hg
    cases hg

/-- `add_dynamic_counters` succeeds exactly when every key of the map is
`memory.grow`, provided every key carries a `Linear` rule. -/
theorem add_dyn_ok_iff {rules : Rules} {gf : Nat} {m : GasModule}
    {dynMap : List (Instruction × Nat)}
    (hlin : ∀ p ∈ dynMap, ∃ b per, rules p.1 = some (.Linear b per)) :
    (∃ m2, add_dynamic_counters rules gf m dynMap = .ok m2) ↔
      ∀ p ∈ dynMap, is_grow p.1 = true := by
  have hperm : ∀ p : Instruction × Nat, p ∈ sort_dyn dynMap ↔ p ∈ dynMap :=
    fun p => (List.perm_insertionSort (fun a b => a.2 ≤ b.2) dynMap).mem_iff
  constructor
  · rintro ⟨m2, hm2⟩ p hp
    unfold add_dynamic_counters at hm2
    obtain ⟨thunks, hth, _⟩ := except_bind_ok hm2
    obtain ⟨t, ht⟩ := mapM_ok_forall hth p ((hperm p).mpr hp)
    exact dyn_thunk_ok_grow ht
  · intro hall
    have hok : ∀ p ∈ sort_dyn dynMap, ∃ t, dyn_thunk rules gf p = .ok t := by
      intro p hp
      exact dyn_thunk_grow_ok (hlin p ((hperm p).mp hp)) (hall p ((hperm p).mp hp))
    obtain ⟨thunks, hth⟩ := mapM_ok_exists hok
    refine ⟨{ m with funcs := m.funcs ++ thunks }, ?_⟩
    unfold add_dynamic_counters
    rw [hth]
    rfl

/-- The thunk map has an entry for `i` exactly when a pair keyed `i` is in
the list. -/
theorem dyn_lookup_isSome (l : List (Instruction × Nat)) (i : Instruction) :
    (dyn_lookup l i).isSome = true ↔ ∃ p ∈ l, p.1 = i := by
  unfold dyn_lookup
  cases hf : List.find? (fun p => decide (p.1 = i)) l with
  | none =>
    constructor
    · intro h
      simp at h
    · rintro ⟨p, hp, hpe⟩
      have h2 := List.find?_eq_none.mp hf p hp
      simp [hpe] at h2
  | some q =>
    constructor
    · intro _
      refine ⟨q, List.mem_of_find?_eq_some hf, ?_⟩
      have h2 := List.find?_some hf
      simpa using h2
    · intro _
      rfl

/-- Looking a key up after an append. -/
theorem dyn_lookup_append (l : List (Instruction × Nat))
    (q : Instruction × Nat) (i : Instruction) :
    (dyn_lookup (l ++ [q]) i).isSome = true ↔
      (dyn_lookup l i).isSome = true ∨ q.1 = i := by
  rw [dyn_lookup_isSome, dyn_lookup_isSome]
  constructor
  · rintro ⟨p, hp, hpe⟩
    rcases List.mem_append.mp hp with hp | hp
    · exact Or.inl ⟨p, hp, hpe⟩
    · rw [List.mem_singleton] at hp
      subst hp
      exact Or.inr hpe
  · rintro (⟨p, hp, hpe⟩ | hq)
    · exact ⟨p, List.mem_append_left _ hp, hpe⟩
    · exact ⟨q, List.mem_append_right _ (List.mem_singleton_self q), hq⟩

/-- The keys after one `entry(...).or_insert_with(...)` step. -/
theorem dyn_entry_keys (st : List (Instruction × Nat) × Nat)
    (a i : Instruction) :
    (dyn_lookup (dyn_entry st a).1 i).isSome = true ↔
      (dyn_lookup st.1 i).isSome = true ∨ i = a := by
  unfold dyn_entry
  by_cases h : (dyn_lookup st.1 a).isSome = true
  · rw [if_pos h]
    constructor
    · exact Or.inl
    · rintro (h2 | rfl)
      · exact h2
      · exact h
  · rw [if_neg h]
    simp only []
    rw [dyn_lookup_append st.1 (a, st.2 + 1) i]
    constructor
    · rintro (h2 | h2)
      · exact Or.inl h2
      · exact Or.inr h2.symm
    · rintro (h2 | rfl)
      · exact Or.inl h2
      · exact Or.inr rfl

/-- The keys accumulated by folding `dyn_entry` over a list. -/
theorem foldl_dyn_entry_keys :
    ∀ (l : List Instruction) (st : List (Instruction × Nat) × Nat)
      (i : Instruction),
      (dyn_lookup (l.foldl dyn_entry st).1 i).isSome = true ↔
        (dyn_lookup st.1 i).isSome = true ∨ i ∈ l := by
  intro l
  induction l with
  | nil =>
    intro st i
    simp
  | cons a l2 ih =>
    intro st i
    rw [List.foldl_cons, ih (dyn_entry st a) i, dyn_entry_keys]
    constructor
    · rintro ((h | h) | h)
      · exact Or.inl h
      · exact Or.inr (by rw [h]; exact List.mem_cons_self a l2)
      · exact Or.inr (List.mem_cons_of_mem a h)
    · rintro (h | h)
      · exact Or.inl (Or.inl h)
      · rcases List.mem_cons.mp h with h | h
        · exact Or.inl (Or.inr h)
        · exact Or.inr h

/-- A failing `inject_counter` run is a failing scan: the insertion pass
cannot fail after a successful scan. -/
theorem inject_counter_err {rules : Rules} {gf : Nat}
    {instrs : List Instruction} {e : GasErr}
    (h : inject_counter rules gf instrs = .error e) :
    determine_metered_blocks rules instrs = .error e := by
  unfold inject_counter at h
  rcases except_bind_err h with h | ⟨r, hr, h⟩
  · exact h
  · obtain ⟨blocks, dyn⟩ := r
    rcases except_bind_err h with h | ⟨o, ho, h⟩
    · obtain ⟨out, hout⟩ := determine_insert_ok gf hr
      rw [hout] at h
      cases h
    · cases h

/-- The per-body loop succeeds exactly when every body's scan does. -/
theorem process_bodies_ok_iff {rules : Rules} {gg gf : Nat}
    {pick : List Instruction → List Instruction} :
    ∀ (fs : List GasFunc) (st : List (Instruction × Nat) × Nat),
      (∃ out, process_bodies rules gg gf pick fs st = .ok out) ↔
        ∀ f ∈ fs, ∃ r,
          determine_metered_blocks rules (renumber_globals gg f.body) = .ok r := by
  intro fs
  induction fs with
  | nil =>
    intro st
    constructor
    · intro _ f hf
      cases hf
    · intro _
      exact ⟨([], st), rfl⟩
  | cons f fs ih =>
    intro st
    constructor
    · rintro ⟨out, hout⟩ g hg
      simp only [process_bodies] at hout
      obtain ⟨bd, hic, hout⟩ := except_bind_ok hout
      obtain ⟨body2, dyn⟩ := bd
      rcases List.mem_cons.mp hg with hg | hg
      · subst hg
        obtain ⟨blocks, hdet⟩ := inject_counter_dyn hic
        exact ⟨(blocks, dyn), hdet⟩
      · obtain ⟨p2, hp2, hout⟩ := except_bind_ok hout
        exact ((ih _).mp ⟨p2, hp2⟩) g hg
    · intro hall
      obtain ⟨⟨blocks, dyn⟩, hdet⟩ := hall f (List.mem_cons_self f fs)
      obtain ⟨body2, hins⟩ := determine_insert_ok gf hdet
      have hic : inject_counter rules gf (renumber_globals gg f.body) =
          .ok (body2, dyn) := by
        unfold inject_counter
        rw [hdet]
        simp only [Bind.bind, Except.bind]
        rw [hins]
      obtain ⟨out2, hout2⟩ := (ih ((pick dyn).foldl dyn_entry st)).mpr
        (fun g hg => hall g (List.mem_cons_of_mem f hg))
      refine ⟨({ f with body := inject_dynamic_counters (((pick dyn).foldl dyn_entry st).1) body2 } :: out2.1, out2.2), ?_⟩
      simp only [process_bodies]
      rw [hic]
      simp only [Bind.bind, Except.bind]
      rw [hout2]

/-- The keys of the thunk map a successful per-body loop accumulates: the
keys already present plus every dynamic instruction of every body. -/
theorem process_bodies_keys {rules : Rules} {gg gf : Nat}
    {pick : List Instruction → List Instruction}
    (hp : ∀ l, List.Perm (pick l) l) :
    ∀ (fs : List GasFunc) (st : List (Instruction × Nat) × Nat)
      (out : List GasFunc × (List (Instruction × Nat) × Nat)),
      process_bodies rules gg gf pick fs st = .ok out →
      ∀ i, (dyn_lookup out.2.1 i).isSome = true ↔
        ((dyn_lookup st.1 i).isSome = true ∨
          ∃ f ∈ fs, ∃ r,
            determine_metered_blocks rules (renumber_globals gg f.body) =
              .ok r ∧ i ∈ r.2) := by
  intro fs
  induction fs with
  | nil =>
    intro st out h i
    simp only [process_bodies] at h
    injection h with h
    subst h
    simp
  | cons f fs ih =>
    intro st out h i
    simp only [process_bodies] at h
    obtain ⟨bd, hic, h⟩ := except_bind_ok h
    obtain ⟨body2, dyn⟩ := bd
    obtain ⟨p2, hp2, h⟩ := except_bind_ok h
    injection h with h
    subst h
    obtain ⟨blocks, hdet⟩ := inject_counter_dyn hic
    rw [ih _ p2 hp2 i, foldl_dyn_entry_keys]
    have hmem : i ∈ pick dyn ↔ i ∈ dyn := (hp dyn).mem_iff
    constructor
    · rintro ((h2 | h2) | h2)
      · exact Or.inl h2
      · exact Or.inr ⟨f, List.mem_cons_self f fs, (blocks, dyn), hdet, hmem.mp h2⟩
      · obtain ⟨g, hg, r, hr, hir⟩ := h2
        exact Or.inr ⟨g, List.mem_cons_of_mem f hg, r, hr, hir⟩
    · rintro (h2 | ⟨g, hg, r, hr, hir⟩)
      · exact Or.inl (Or.inl h2)
      · rcases List.mem_cons.mp hg with hg | hg
        · subst hg
          rw [hdet] at hr
          injection hr with hr
          subst hr
          exact Or.inl (Or.inr (hmem.mpr hir))
        · exact Or.inr ⟨g, hg, r, hr, hir⟩

/-- A pair of the folded thunk map was present before or keys an element of
the folded list. -/
theorem foldl_dyn_entry_mem :
    ∀ (l : List Instruction) (st : List (Instruction × Nat) × Nat)
      (p : Instruction × Nat),
      p ∈ (l.foldl dyn_entry st).1 → p ∈ st.1 ∨ p.1 ∈ l := by
  intro l
  induction l with
  | nil =>
    intro st p h
    exact Or.inl h
  | cons a l2 ih =>
    intro st p h
    rw [List.foldl_cons] at h
    rcases ih (dyn_entry st a) p h with h2 | h2
    · unfold dyn_entry at h2
      split at h2
      · exact Or.inl h2
      · rcases List.mem_append.mp h2 with h3 | h3
        · exact Or.inl h3
        · rw [List.mem_singleton] at h3
          subst h3
          exact Or.inr (List.mem_cons_self a l2)
    · exact Or.inr (List.mem_cons_of_mem a h2)

/-- Every pair of the thunk map a successful per-body loop accumulates keys
a `Linear`-costed instruction. -/
theorem process_bodies_dyn_linear {rules : Rules} {gg gf : Nat}
    {pick : List Instruction → List Instruction}
    (hp : ∀ l, List.Perm (pick l) l) :
    ∀ (fs : List GasFunc) (st : List (Instruction × Nat) × Nat)
      (out : List GasFunc × (List (Instruction × Nat) × Nat)),
      process_bodies rules gg gf pick fs st = .ok out →
      (∀ p ∈ st.1, ∃ b per, rules p.1 = some (.Linear b per)) →
      ∀ p ∈ out.2.1, ∃ b per, rules p.1 = some (.Linear b per) := by
  intro fs
  induction fs with
  | nil =>
    intro st out h hbase
    simp only [process_bodies] at h
    injection h with h
    subst h
    exact hbase
  | cons f fs ih =>
    intro st out h hbase
    simp only [process_bodies] at h
    obtain ⟨bd, hic, h⟩ := except_bind_ok h
    obtain ⟨body2, dyn⟩ := bd
    obtain ⟨p2, hp2, h⟩ := except_bind_ok h
    injection h with h
    subst h
    obtain ⟨blocks, hdet⟩ := inject_counter_dyn hic
    refine ih _ p2 hp2 ?_
    intro q hq
    rcases foldl_dyn_entry_mem (pick dyn) st q hq with h2 | h2
    · exact hbase q h2
    · exact determine_dyn_linear hdet q.1 ((hp dyn).mem_iff.mp h2)

/-- The injected gas import matches the source's import filter. -/
theorem gas_import_is_gas (name : String) :
    is_gas_import name (gas_import name) = true := by
  simp [is_gas_import, gas_import]

/-- Appending the gas import adds one match of the import filter. -/
theorem count_gas_imports_append_self (name : String) (l : List ImportEntry) :
    count_gas_imports name (l ++ [gas_import name]) =
      count_gas_imports name l + 1 := by
  unfold count_gas_imports
  rw [List.filter_append, List.length_append]
  simp [List.filter_cons, gas_import_is_gas name]

/-- Assembling a successful `inject` run from its pieces. -/
theorem inject_ok_build {rules : Rules} {name : String}
    {pick : List Instruction → List Instruction} {m : GasModule}
    {funcs1 : List GasFunc} {st : List (Instruction × Nat) × Nat}
    (hpb : process_bodies rules (gas_global_of m)
        (count_func_imports m.imports + m.funcs.length) pick m.funcs
        ([], count_func_imports m.imports + m.funcs.length) = .ok (funcs1, st))
    (hcg : count_gas_imports name (m.imports ++ [gas_import name]) = 1)
    (hel : m.elem_offsets.all offset_ok = true)
    (hda : m.data_offsets.all offset_ok = true)
    (hth : st.1.isEmpty = true ∨
      ∃ m2, add_dynamic_counters rules
        (count_func_imports m.imports + m.funcs.length)
        (add_gas_counter
          { imports := m.imports ++ [gas_import name], funcs := funcs1,
            exports := m.exports.map (renumber_export (gas_global_of m)),
            elem_offsets := m.elem_offsets, data_offsets := m.data_offsets }
          (gas_global_of m)) st.1 = .ok m2) :
    ∃ m2, inject rules name pick m = .ok m2 := by
  unfold inject
  simp only []
  rw [count_global_imports_gas, count_func_imports_gas, Nat.add_sub_cancel]
  have hgg : count_global_imports m.imports = gas_global_of m := rfl
  rw [hgg, hpb]
  simp only [Bind.bind, Except.bind]
  rw [if_pos hcg]
  simp only [pure, Except.pure, Except.bind]
  rw [if_pos hel, if_pos hda]
  cases hie : st.1.isEmpty with
  | true =>
    rw [if_pos rfl]
    exact ⟨_, rfl⟩
  | false =>
    rw [if_neg (by simp)]
    rcases hth with h | ⟨m2, h⟩
    · rw [hie] at h
      cases h
    · exact ⟨m2, h⟩

/-- C2 (amended).  With `pick` an iteration order of the dynamic-instruction
set, gas injection fails — its Err value is an opaque marker, not the
original module — exactly when a (renumbered) body has a forbidden
instruction, some body's scan underflows the control stack or overflows a
block cost, an import already matches the (gas_module_name, "gas_counter",
mutable global) slot, an element or data segment offset initializer fails
the `i32.const N; end` check, or some body flags a dynamic-cost instruction
other than `memory.grow`, for which no thunk can be synthesised. -/
theorem inject_error_characterization (rules : Rules) (name : String)
    (pick : List Instruction → List Instruction) (m : GasModule)
    (hp : ∀ l, List.Perm (pick l) l) :
    ((inject rules name pick m).isOk = false ↔
      (has_forbidden rules m ∨ det_err rules m .underflow ∨
       det_err rules m .overflow ∨ has_conflicting_import name m ∨
       has_bad_offset m ∨ has_unsupported_dyn rules m)) := by
  have main : (∃ m2, inject rules name pick m = .ok m2) ↔
      ¬(has_forbidden rules m ∨ det_err rules m .underflow ∨
        det_err rules m .overflow ∨ has_conflicting_import name m ∨
        has_bad_offset m ∨ has_unsupported_dyn rules m) := by
    constructor
    · rintro ⟨m2, h⟩ hdisj
      obtain ⟨funcs1, st, tail, hpb, hcg, hel, hda, him, hex, hee, hdd, hfun,
        h8, h9⟩ := inject_ok_inv h
      have hall := (process_bodies_ok_iff m.funcs
        ([], count_func_imports m.imports + m.funcs.length)).mp
        ⟨(funcs1, st), hpb⟩
      rcases hdisj with hc | hc | hc | hc | hc | hc
      · obtain ⟨f, hf, i, hi, hnone⟩ := hc
        obtain ⟨r, hdet⟩ := hall f hf
        exact determine_ok_rules hdet i hi hnone
      · obtain ⟨f, hf, hdeterr⟩ := hc
        obtain ⟨r, hdet⟩ := hall f hf
        rw [hdet] at hdeterr
        cases hdeterr
      · obtain ⟨f, hf, hdeterr⟩ := hc
        obtain ⟨r, hdet⟩ := hall f hf
        rw [hdet] at hdeterr
        cases hdeterr
      · have happ := count_gas_imports_append_self name m.imports
        unfold has_conflicting_import at hc
        omega
      · exact hc ⟨hel, hda⟩
      · obtain ⟨f, hf, r, hdet, i, hir, hgrow⟩ := hc
        have hkey := (process_bodies_keys hp m.funcs
          ([], count_func_imports m.imports + m.funcs.length)
          (funcs1, st) hpb i).mpr (Or.inr ⟨f, hf, r, hdet, hir⟩)
        obtain ⟨p, hpmem, hpe⟩ := (dyn_lookup_isSome st.1 i).mp hkey
        have hie : st.1.isEmpty = false := by
          cases hst : st.1 with
          | nil => rw [hst] at hpmem; cases hpmem
          | cons a l2 => rfl
        have hmap := h9 hie
        have hps : p ∈ sort_dyn st.1 := by
          unfold sort_dyn
          exact (List.perm_insertionSort
            (fun a b : Instruction × Nat => a.2 ≤ b.2) st.1).mem_iff.mpr hpmem
        obtain ⟨t, ht⟩ := mapM_ok_forall hmap p hps
        have := dyn_thunk_ok_grow ht
        rw [hpe] at this
        rw [this] at hgrow
        cases hgrow
    · intro hnd
      push_neg at hnd
      obtain ⟨hnf, hnu, hno, hnc, hnb, hnd2⟩ := hnd
      have hall : ∀ f ∈ m.funcs, ∃ r,
          determine_metered_blocks rules
            (renumber_globals (gas_global_of m) f.body) = .ok r := by
        intro f hf
        cases hdet : determine_metered_blocks rules
            (renumber_globals (gas_global_of m) f.body) with
        | ok r => exact ⟨r, rfl⟩
        | error e =>
          rcases determine_err_tags hdet with ⟨he, i, hi, hnone⟩ | he | he
          · exact absurd ⟨f, hf, i, hi, hnone⟩ hnf
          · subst he
            exact absurd ⟨f, hf, hdet⟩ hnu
          · subst he
            exact absurd ⟨f, hf, hdet⟩ hno
      obtain ⟨out, hpb⟩ := (process_bodies_ok_iff m.funcs
        ([], count_func_imports m.imports + m.funcs.length)).mpr hall
      obtain ⟨funcs1, st⟩ := out
      have hcg : count_gas_imports name (m.imports ++ [gas_import name]) = 1 := by
        have happ := count_gas_imports_append_self name m.imports
        unfold has_conflicting_import at hnc
        omega
      have hoff : m.elem_offsets.all offset_ok = true ∧
          m.data_offsets.all offset_ok = true := by
        by_contra hcon
        exact hnb hcon
      have hgrall : ∀ p ∈ st.1, is_grow p.1 = true := by
        intro p hpmem
        cases hg : is_grow p.1 with
        | true => rfl
        | false =>
          exfalso
          have hkey : (dyn_lookup st.1 p.1).isSome = true :=
            (dyn_lookup_isSome st.1 p.1).mpr ⟨p, hpmem, rfl⟩
          have h2 := (process_bodies_keys hp m.funcs
            ([], count_func_imports m.imports + m.funcs.length)
            (funcs1, st) hpb p.1).mp hkey
          rcases h2 with h2 | ⟨f, hf, r, hdet, hir⟩
          · simp [dyn_lookup] at h2
          · exact hnd2 ⟨f, hf, r, hdet, p.1, hir, hg⟩
      cases hie : st.1.isEmpty with
      | true =>
        exact inject_ok_build hpb hcg hoff.1 hoff.2 (Or.inl hie)
      | false =>
        have hlin := process_bodies_dyn_linear hp m.funcs
          ([], count_func_imports m.imports + m.funcs.length)
          (funcs1, st) hpb (fun p hp2 => absurd hp2 (by simp))
        obtain ⟨m2, hm2⟩ := (add_dyn_ok_iff hlin).mpr hgrall
        exact inject_ok_build hpb hcg hoff.1 hoff.2 (Or.inr ⟨m2, hm2⟩)
  constructor
  · intro hfalse
    by_contra hnd
    obtain ⟨m2, h⟩ := main.mpr hnd
    rw [h] at hfalse
    cases hfalse
  · intro hdisj
    cases hres : inject rules name pick m with
    | ok m2 => exact absurd hdisj (main.mp ⟨m2, hres⟩)
    | error e => rfl

/-- C2 counterexample.  Under rules that give `i32.add` a linear cost, the
one-body module `add_module` makes injection fail — the thunk builder knows
no signature for `i32.add` — although none of the claim's five failure
conditions holds; the Err value is an opaque marker, not the original
module. -/
theorem inject_fails_outside_claimed_conditions :
    (inject linear_add_rules "env" id add_module).isOk = false ∧
    ¬ has_forbidden linear_add_rules add_module ∧
    ¬ det_err linear_add_rules add_module .underflow ∧
    ¬ det_err linear_add_rules add_module .overflow ∧
    ¬ has_conflicting_import "env" add_module ∧
    ¬ has_bad_offset add_module := by
  refine ⟨rfl, ?_, ?_, ?_, ?_, ?_⟩
  · unfold has_forbidden
    decide
  · unfold det_err
    decide
  · unfold det_err
    decide
  · unfold has_conflicting_import
    decide
  · unfold has_bad_offset
    decide

/-- Witness for inject_error_characterization: on `add_module` with
fixed-cost rules and the first-insertion iteration order, the
characterisation holds. -/
theorem inject_error_characterization_witness :
    ((inject c1_rules "env" id add_module).isOk = false ↔
      (has_forbidden c1_rules add_module ∨
       det_err c1_rules add_module .underflow ∨
       det_err c1_rules add_module .overflow ∨
       has_conflicting_import "env" add_module ∨
       has_bad_offset add_module ∨
       has_unsupported_dyn c1_rules add_module)) :=
  inject_error_characterization c1_rules "env" id add_module
    (fun l => List.Perm.refl l)

/-- The injected gas import matches the exact mutable-i64 gas slot. -/
theorem gas_import_matches_i64 (name : String) :
    is_gas_import_i64 name (gas_import name) = true := by
  simp [is_gas_import_i64, gas_import, GAS_COUNTER_NAME]

/-- The exact-triple count is bounded by the source's broader filter
count. -/
theorem count_i64_le_count (name : String) (l : List ImportEntry) :
    count_gas_imports_i64 name l ≤ count_gas_imports name l := by
  unfold count_gas_imports_i64 count_gas_imports
  rw [← List.countP_eq_length_filter, ← List.countP_eq_length_filter]
  refine List.countP_mono_left ?_
  intro p hp hpi
  simp only [is_gas_import_i64, Bool.and_eq_true, decide_eq_true_eq] at hpi
  obtain ⟨⟨h1, h2⟩, h3⟩ := hpi
  simp [is_gas_import, h3, h1, h2]

/-- Appending the gas import adds one exact-triple match. -/
theorem count_i64_append_self (name : String) (l : List ImportEntry) :
    count_gas_imports_i64 name (l ++ [gas_import name]) =
      count_gas_imports_i64 name l + 1 := by
  unfold count_gas_imports_i64
  rw [List.filter_append, List.length_append]
  simp [List.filter_cons, gas_import_matches_i64 name]

/-- C4.  After a successful gas injection the output module has exactly
one import matching the triple (gas_module_name, "gas_counter", mutable
i64 global); and when the input already holds such an import, injection
fails. -/
theorem gas_import_uniqueness (rules : Rules) (name : String)
    (pick : List Instruction → List Instruction) (m m2 : GasModule) :
    (inject rules name pick m = .ok m2 →
      count_gas_imports_i64 name m2.imports = 1) ∧
    (1 ≤ count_gas_imports_i64 name m.imports →
      inject rules name pick m ≠ .ok m2) := by
  constructor
  · intro h
    obtain ⟨funcs1, st, tail, hpb, hcg, hel, hda, him, _, _, _, _, _, _⟩ :=
      inject_ok_inv h
    rw [him]
    have hle := count_i64_le_count name m.imports
    have hbroad := count_gas_imports_append_self name m.imports
    have hi64 := count_i64_append_self name m.imports
    omega
  · intro hconf h
    obtain ⟨funcs1, st, tail, hpb, hcg, hel, hda, him, _, _, _, _, _, _⟩ :=
      inject_ok_inv h
    have hle := count_i64_le_count name m.imports
    have hbroad := count_gas_imports_append_self name m.imports
    omega

/-- Witness for gas_import_uniqueness: the injected `add_module` has exactly
one mutable-i64 gas import. -/
theorem gas_import_uniqueness_witness :
    count_gas_imports_i64 "env"
      (GasModule.imports
        { imports := [{ module := "env", field := GAS_COUNTER_NAME,
                        ext := .globalImp .i64 true }],
          funcs := [{ params := [], results := [],
                      body := [.I64Const 1, .Call 1, .I32Add, .End] },
                    gas_counter_func 0],
          exports := [], elem_offsets := [], data_offsets := [] }) = 1 :=
  (gas_import_uniqueness c1_rules "env" id add_module
    { imports := [{ module := "env", field := GAS_COUNTER_NAME,
                    ext := .globalImp .i64 true }],
      funcs := [{ params := [], results := [],
                  body := [.I64Const 1, .Call 1, .I32Add, .End] },
                gas_counter_func 0],
      exports := [], elem_offsets := [], data_offsets := [] }).1 rfl

end WasmInstrument
